import Mathlib

/-!
Verification development for the Mix-Play engine (`src/mix_player.py`):
word normalization, corpus indexing, multi-tier search, diversity-aware
selection, sentence composition and audio assembly.

Strings are modelled as `List Char`.  Unicode-dependent operations
(`str.lower`, NFD decomposition, combining-class tests) are modelled by
explicit tables restricted to the repertoire relevant to the corpus
(ASCII plus the French accented letters); characters outside the tables
are left unchanged, which matches the real functions on that repertoire.
Floating-point numbers are modelled as rationals.
-/

namespace Amours

/-- Strings of the Python source, modelled as lists of characters. -/
abbrev Str := List Char

/-- Whitespace characters stripped by Python `str.strip()`
(space, tab, newline, carriage return, vertical tab, form feed). -/
def isWS (c : Char) : Bool :=
  c = ' ' || c = '\t' || c = '\n' || c = '\r' || c = Char.ofNat 11 || c = Char.ofNat 12

/-- The punctuation set removed by `clean_word`:
the regex class `[.,;:!?"'\-()\[\]{}]` of `mix_player.py` line 85.
(34 = double quote, 39 = apostrophe, 123/125 = braces.) -/
def punctChars : List Char :=
  ['.', ',', ';', ':', '!', '?', Char.ofNat 34, Char.ofNat 39, '-',
   '(', ')', '[', ']', Char.ofNat 123, Char.ofNat 125]

/-- Membership in the removed punctuation set. -/
def isPunct (c : Char) : Bool := punctChars.contains c

/-- Lowercasing table for ASCII letters (`str.lower`). -/
def asciiLowerTable : List (Char × Char) :=
  (List.range 26).map (fun i => (Char.ofNat (65 + i), Char.ofNat (97 + i)))

/-- Lowercasing table for the French uppercase accented letters
(À Â Ä Ç È É Ê Ë Î Ï Ô Ö Ù Û Ü and Œ). -/
def accentLowerTable : List (Char × Char) :=
  [(Char.ofNat 192, Char.ofNat 224), (Char.ofNat 194, Char.ofNat 226),
   (Char.ofNat 196, Char.ofNat 228), (Char.ofNat 199, Char.ofNat 231),
   (Char.ofNat 200, Char.ofNat 232), (Char.ofNat 201, Char.ofNat 233),
   (Char.ofNat 202, Char.ofNat 234), (Char.ofNat 203, Char.ofNat 235),
   (Char.ofNat 206, Char.ofNat 238), (Char.ofNat 207, Char.ofNat 239),
   (Char.ofNat 212, Char.ofNat 244), (Char.ofNat 214, Char.ofNat 246),
   (Char.ofNat 217, Char.ofNat 249), (Char.ofNat 219, Char.ofNat 251),
   (Char.ofNat 220, Char.ofNat 252), (Char.ofNat 338, Char.ofNat 339)]

/-- The lowercasing map of Python `str.lower`, on the modelled repertoire. -/
def lowerTable : List (Char × Char) := asciiLowerTable ++ accentLowerTable

/-- Per-character lowercasing; identity outside the table. -/
def lowerChar (c : Char) : Char := (lowerTable.lookup c).getD c

/-- NFD decomposition table for the lowercase French accented letters:
each maps to its base letter followed by a combining mark
(768 grave, 769 acute, 770 circumflex, 776 diaeresis, 807 cedilla). -/
def nfdTable : List (Char × List Char) :=
  [(Char.ofNat 224, [Char.ofNat 97, Char.ofNat 768]),
   (Char.ofNat 226, [Char.ofNat 97, Char.ofNat 770]),
   (Char.ofNat 228, [Char.ofNat 97, Char.ofNat 776]),
   (Char.ofNat 231, [Char.ofNat 99, Char.ofNat 807]),
   (Char.ofNat 232, [Char.ofNat 101, Char.ofNat 768]),
   (Char.ofNat 233, [Char.ofNat 101, Char.ofNat 769]),
   (Char.ofNat 234, [Char.ofNat 101, Char.ofNat 770]),
   (Char.ofNat 235, [Char.ofNat 101, Char.ofNat 776]),
   (Char.ofNat 238, [Char.ofNat 105, Char.ofNat 770]),
   (Char.ofNat 239, [Char.ofNat 105, Char.ofNat 776]),
   (Char.ofNat 244, [Char.ofNat 111, Char.ofNat 770]),
   (Char.ofNat 246, [Char.ofNat 111, Char.ofNat 776]),
   (Char.ofNat 249, [Char.ofNat 117, Char.ofNat 768]),
   (Char.ofNat 251, [Char.ofNat 117, Char.ofNat 770]),
   (Char.ofNat 252, [Char.ofNat 117, Char.ofNat 776])]

/-- Per-character NFD decomposition (`unicodedata.normalize('NFD', ...)`);
identity outside the table. -/
def nfdChar (c : Char) : List Char := (nfdTable.lookup c).getD [c]

/-- The combining marks occurring in the modelled repertoire
(`unicodedata.combining(c)` nonzero). -/
def combiningMarks : List Char :=
  [Char.ofNat 768, Char.ofNat 769, Char.ofNat 770, Char.ofNat 776, Char.ofNat 807]

/-- Whether a character is a combining mark. -/
def isCombining (c : Char) : Bool := combiningMarks.contains c

/-- Remove leading whitespace. -/
def ltrim (s : Str) : Str := s.dropWhile isWS

/-- Remove trailing whitespace. -/
def rtrim (s : Str) : Str := (s.reverse.dropWhile isWS).reverse

/-- Python `str.strip()`: remove whitespace at both ends (the two ends are
independent, so the order of the two trims is immaterial). -/
def strip (s : Str) : Str := ltrim (rtrim s)

/-- Remove the punctuation characters (`re.sub` at `mix_player.py` line 85). -/
def rmPunct (s : Str) : Str := s.filter (fun c => !(isPunct c))

/-- `MixPlayer.clean_word` (`mix_player.py` lines 71-91): strip surrounding
whitespace, remove the fixed punctuation set, lowercase, NFD-decompose and
drop combining marks. -/
def cleanWord (s : Str) : Str :=
  (((rmPunct (strip s)).map lowerChar).flatMap nfdChar).filter
    (fun c => !(isCombining c))

/-- `WordMatch` (`mix_player.py` lines 23-36): one indexed word occurrence
with its provenance.  Timing and confidence floats are modelled as rationals. -/
structure WordMatch where
  word : Str
  cleaned_word : Str
  start : ℚ
  ending : ℚ
  duration : ℚ
  confidence : ℚ
  speaker : Str
  file_path : Str
  file_name : Str
  segment_id : ℤ
  audio_path : Str
deriving DecidableEq, Repr

instance : Inhabited WordMatch :=
  ⟨⟨[], [], 0, 0, 0, 0, [], [], [], 0, []⟩⟩

/-- The corpus index `word_index : Dict[str, List[WordMatch]]`, modelled as an
association list in dict insertion order. -/
abbrev Index := List (Str × List WordMatch)

/-- Dict read `self.word_index.get(key, [])`. -/
def indexGet (idx : Index) (k : Str) : List WordMatch :=
  (idx.lookup k).getD []

/-- The `defaultdict(list)` append `self.word_index[key].append(m)`: extend the
bucket of `k` if present, otherwise insert a new bucket at the end. -/
def indexAppend (idx : Index) (k : Str) (m : WordMatch) : Index :=
  if (idx.lookup k).isSome then
    idx.map (fun p => if p.1 == k then (p.1, p.2 ++ [m]) else p)
  else
    idx ++ [(k, [m])]

/-- Replacing the bucket of an existing key — this is how the *in-place*
`list.sort` of `search_word` line 188 acts on the index. -/
def indexSet (idx : Index) (k : Str) (b : List WordMatch) : Index :=
  idx.map (fun p => if p.1 == k then (p.1, b) else p)

/-- The comparison used by `matches.sort(key=lambda x: x.confidence,
reverse=True)`: descending confidence. -/
def confGe (a b : WordMatch) : Prop := b.confidence ≤ a.confidence

instance : DecidableRel confGe := fun a b => inferInstanceAs (Decidable (_ ≤ _))

instance : IsTotal WordMatch confGe := ⟨fun a b => le_total b.confidence a.confidence⟩

instance : IsTrans WordMatch confGe := ⟨fun _ _ _ h h' => le_trans h' h⟩

/-- Python's stable `list.sort(key=confidence, reverse=True)`, modelled by
stable insertion sort with the descending-confidence relation. -/
def sortByConfDesc (l : List WordMatch) : List WordMatch :=
  l.insertionSort confGe

/-- The external `difflib` calls of the fuzzy tier, passed in as parameters:
`closeMatches term keys n cutoff` models `difflib.get_close_matches` and
`ratio a b` models `difflib.SequenceMatcher(None, a, b).ratio()`.  They are
library code outside this repository, so the search theorems hold for every
choice of these two functions. -/
structure Difflib where
  closeMatches : Str → List Str → ℕ → ℚ → List Str
  ratio : Str → Str → ℚ

/-- Hamming-style mismatch count of the short-word tier
(`sum(1 for a, b in zip(...) if a != b)`). -/
def zipMismatches (a b : Str) : ℕ :=
  ((a.zip b).filter (fun p => p.1 ≠ p.2)).length

/-- `MixPlayer.search_word` (`mix_player.py` lines 169-245).  Returns the
result list *and* the updated index, because the exact tier sorts its bucket
in place.  The four tiers are tried in order, each returning on first success:
exact key match, prefix/suffix morphological match, difflib fuzzy match with
re-verification at threshold 0.85, and a Hamming fallback for short terms. -/
def searchWord (D : Difflib) (idx : Index) (searchTerm : Str) (maxResults : ℕ) :
    List WordMatch × Index :=
  let cs := cleanWord searchTerm
  let exactMatches := indexGet idx cs
  if exactMatches ≠ [] then
    let sorted := sortByConfDesc exactMatches
    (sorted.take maxResults, indexSet idx cs sorted)
  else
    let keys := idx.map Prod.fst
    let prefixMatches :=
      (keys.filter (fun k => 3 ≤ cs.length && cs.isPrefixOf k)).flatMap (indexGet idx)
    let suffixMatches :=
      (keys.filter (fun k => 3 ≤ cs.length && !(cs.isPrefixOf k) && cs.isSuffixOf k)).flatMap
        (indexGet idx)
    let morphologicalMatches := prefixMatches ++ suffixMatches
    if morphologicalMatches ≠ [] then
      ((sortByConfDesc morphologicalMatches).take maxResults, idx)
    else
      let similarWords := D.closeMatches cs keys 3 (9/10)
      let fuzzyMatches :=
        (similarWords.filter (fun w => 17/20 ≤ D.ratio cs w)).flatMap (indexGet idx)
      if fuzzyMatches ≠ [] then
        ((sortByConfDesc fuzzyMatches).take maxResults, idx)
      else
        if cs.length ≤ 3 then
          let phoneticMatches :=
            (keys.filter (fun k =>
              ((k.length : ℤ) - cs.length).natAbs ≤ 1 && zipMismatches cs k ≤ 1)).flatMap
              (indexGet idx)
          if phoneticMatches ≠ [] then
            ((sortByConfDesc phoneticMatches).take maxResults, idx)
          else ([], idx)
        else ([], idx)

/-- `pathlib.Path(name).stem`: the final path component without its last
extension.  Matching pathlib, the last dot starts an extension only when it
is strictly interior to the name (neither the first nor the last character):
`Path('.bashrc').stem == '.bashrc'` and `Path('ab.').stem == 'ab.'`. -/
def fileStem (s : Str) : Str :=
  let base := (s.reverse.takeWhile (fun c => c ≠ '/')).reverse
  match base.reverse.findIdx? (fun c => c = '.') with
  | some i =>
      if 0 < i ∧ i + 1 < base.length then base.take (base.length - 1 - i) else base
  | none => base

/-- The usage-ledger key `f"{Path(match.file_name).stem}_{match.speaker}"`
(`mix_player.py` lines 285 and 346). -/
def sourceKey (m : WordMatch) : Str :=
  fileStem m.file_name ++ '_' :: m.speaker

/-- The `used_sources` dict `{source_key: count}`, modelled as an association
list in dict insertion order. -/
abbrev Ledger := List (Str × ℕ)

/-- `used_sources.get(key, 0)`. -/
def usageOf (used : Ledger) (k : Str) : ℕ :=
  (used.lookup k).getD 0

/-- `used_sources[key] = used_sources.get(key, 0) + 1`. -/
def bumpUsage (used : Ledger) (k : Str) : Ledger :=
  if (used.lookup k).isSome then
    used.map (fun p => if p.1 == k then (p.1, p.2 + 1) else p)
  else
    used ++ [(k, 1)]

/-- The diversity score of `find_best_word_match` lines 288-292:
`confidence * (1 / (1 + usage_count * 0.3))`. -/
def diversityScore (used : Ledger) (m : WordMatch) : ℚ :=
  m.confidence * (1 / (1 + (usageOf used (sourceKey m) : ℚ) * (3/10)))

/-- The comparison of `scored_matches.sort(key=lambda x: x[0], reverse=True)`:
descending score. -/
def scoreGe (a b : ℚ × WordMatch) : Prop := b.1 ≤ a.1

instance : DecidableRel scoreGe := fun a b => inferInstanceAs (Decidable (_ ≤ _))

instance : IsTotal (ℚ × WordMatch) scoreGe := ⟨fun a b => le_total b.1 a.1⟩

instance : IsTrans (ℚ × WordMatch) scoreGe := ⟨fun _ _ _ h h' => le_trans h' h⟩

/-- `MixPlayer.find_best_word_match` (`mix_player.py` lines 247-303).
Filters the search results by minimum confidence, optionally restricts to
preferred speakers (soft preference), then either picks by the combined
confidence-diversity score (when diversity is requested *and* the ledger dict
is non-empty — an empty Python dict is falsy) or simply returns the first,
highest-confidence, match.  The updated index from `search_word` is threaded
through. -/
def findBestWordMatch (D : Difflib) (idx : Index) (searchTerm : Str)
    (preferredSpeakers : Option (List Str)) (minConfidence : ℚ)
    (usedSources : Ledger) (prioritizeDiversity : Bool) :
    Option WordMatch × Index :=
  let res := searchWord D idx searchTerm 50
  let idx' := res.2
  let found := res.1.filter (fun m => minConfidence ≤ m.confidence)
  if found = [] then (none, idx')
  else
    let pool :=
      match preferredSpeakers with
      | some ps =>
          if ps ≠ [] then
            let preferredMatches :=
              found.filter (fun (m : WordMatch) => ps.contains m.speaker)
            if preferredMatches ≠ [] then preferredMatches else found
          else found
      | none => found
    if prioritizeDiversity && usedSources ≠ [] then
      let scoredMatches := pool.map
        (fun (m : WordMatch) => (diversityScore usedSources m, m))
      let sorted := scoredMatches.insertionSort scoreGe
      (some (sorted.head?.getD default).2, idx')
    else
      (some (pool.head?.getD default), idx')

/-- `ComposedSentence` (`mix_player.py` lines 39-47). -/
structure ComposedSentence where
  text : Str
  words : List WordMatch
  total_duration : ℚ
  speakers_used : List Str
  files_used : List Str
deriving DecidableEq, Repr

/-- State of the word loop of `compose_sentence`: selected words, missing
words, usage ledger, and the (mutable) index. -/
structure ComposeState where
  selected : List WordMatch
  missing : List Str
  used : Ledger
  idx : Index
deriving Repr

/-- The per-word loop of `compose_sentence` (`mix_player.py` lines 333-359):
select each word with the shared ledger, append it and bump its source count,
or record the word as missing. -/
def composeLoop (D : Difflib) (preferredSpeakers : Option (List Str))
    (minConfidence : ℚ) (prioritizeDiversity : Bool) :
    List Str → ComposeState → ComposeState
  | [], st => st
  | w :: ws, st =>
      let res := findBestWordMatch D st.idx w preferredSpeakers minConfidence
        st.used prioritizeDiversity
      match res.1 with
      | some m =>
          composeLoop D preferredSpeakers minConfidence prioritizeDiversity ws
            ⟨st.selected ++ [m], st.missing, bumpUsage st.used (sourceKey m), res.2⟩
      | none =>
          composeLoop D preferredSpeakers minConfidence prioritizeDiversity ws
            ⟨st.selected, st.missing ++ [w], st.used, res.2⟩

/-- `MixPlayer.compose_sentence` (`mix_player.py` lines 305-390): run the word
loop with a fresh ledger, then compute the total duration (word durations plus
`max_gap_duration` between consecutive words), the speaker/file statistics and
the joined text.  `list(set(...))` orders are modelled by order-preserving
deduplication. -/
def composeSentence (D : Difflib) (idx : Index) (words : List Str)
    (preferredSpeakers : Option (List Str)) (minConfidence : ℚ)
    (maxGapDuration : ℚ) (prioritizeDiversity : Bool) :
    ComposedSentence × Index :=
  let st := composeLoop D preferredSpeakers minConfidence prioritizeDiversity
    words ⟨[], [], [], idx⟩
  let selectedWords := st.selected
  let baseDuration := (selectedWords.map (fun w => w.duration)).sum
  let totalDuration :=
    if 1 < selectedWords.length then
      baseDuration + maxGapDuration * ((selectedWords.length : ℚ) - 1)
    else baseDuration
  let speakersUsed := (selectedWords.map (fun w => w.speaker)).dedup
  let filesUsed := (selectedWords.map (fun w => w.file_name)).dedup
  let composedText := List.intercalate [' '] (selectedWords.map (fun w => strip w.word))
  (⟨composedText, selectedWords, totalDuration, speakersUsed, filesUsed⟩, st.idx)

/-- One word entry of a transcript JSON (`segment['words'][i]`).  The five
fields read by the indexer are `Option`-valued so that a schema violation
(missing field, which raises `KeyError` in the Python code) can be expressed. -/
structure RawWord where
  word : Option Str
  start : Option ℚ
  ending : Option ℚ
  duration : Option ℚ
  confidence : Option ℚ
deriving DecidableEq, Repr

/-- One utterance segment of a transcript JSON. -/
structure Segment where
  id : ℤ
  speaker : Str
  words : List RawWord
deriving DecidableEq, Repr

/-- One transcript record (`*_complete.json`): the metadata read at
`mix_player.py` lines 131-132 plus the segments. -/
structure Record where
  file_name : Str
  audio_path : Str
  json_path : Str
  segments : List Segment
deriving DecidableEq, Repr

/-- A word entry on which the indexing loop raises `KeyError`: its `word`
field is missing (read first, line 141), or its word cleans to something
non-empty and one of `start`/`end`/`duration`/`confidence` is missing — those
four are only read *after* the empty-clean `continue` (lines 145-155), so an
entry whose word cleans to empty never raises, whatever else it lacks. -/
def wordEntryRaises (w : RawWord) : Bool :=
  match w.word with
  | none => true
  | some wd =>
      if cleanWord wd = [] then false
      else
        w.start.isNone || w.ending.isNone || w.duration.isNone ||
          w.confidence.isNone

/-- The inner word loop of `_load_single_transcription` (lines 140-164),
mirroring the source's read order: `word_data['word']` first, then the
empty-clean `continue`, and only then the four remaining fields.  Returns
the accumulated index and whether an exception aborted the record: entries
appended before the bad one persist (the dict was already mutated), the rest
of the record is abandoned because the `try` block wraps the whole record. -/
def loadWords (r : Record) (seg : Segment) (idx : Index) :
    List RawWord → Index × Bool
  | [] => (idx, false)
  | w :: ws =>
      match w.word with
      | none => (idx, true)
      | some wd =>
          let cleaned := cleanWord wd
          if cleaned = [] then loadWords r seg idx ws
          else
            match w.start, w.ending, w.duration, w.confidence with
            | some s, some e, some d, some c =>
                let wordMatch : WordMatch :=
                  ⟨wd, cleaned, s, e, d, c, seg.speaker, r.json_path, r.file_name,
                   seg.id, r.audio_path⟩
                loadWords r seg (indexAppend idx cleaned wordMatch) ws
            | _, _, _, _ => (idx, true)

/-- The segment loop of `_load_single_transcription` (lines 135-164),
threading the abort flag: once a word entry raises, no later segment of the
record is processed. -/
def loadSegments (r : Record) (idx : Index) : List Segment → Index × Bool
  | [] => (idx, false)
  | seg :: segs =>
      let res := loadWords r seg idx seg.words
      if res.2 then res else loadSegments r res.1 segs

/-- `MixPlayer._load_single_transcription` (`mix_player.py` lines 119-167):
index every word of one record; any exception is caught at the record level
(line 166), so it stops that record only, keeping the entries already
appended. -/
def loadSingleTranscription (idx : Index) (r : Record) : Index :=
  (loadSegments r idx r.segments).1

/-- `MixPlayer.load_transcriptions` (`mix_player.py` lines 93-117): clear the
index, fail if there is no transcript file at all, otherwise index each record
in turn (a record aborted by a schema violation never affects the others). -/
def loadTranscriptions (records : List Record) : Except Str Index :=
  if records = [] then
    Except.error ("Aucun fichier de transcription trouve").toList
  else
    Except.ok (records.foldl loadSingleTranscription [])

/-- Python `int()` applied to a rational: truncation toward zero
(`Int` division in Lean is exactly T-division). -/
def intTrunc (q : ℚ) : ℤ := q.num / (q.den : ℤ)

/-- `int(seconds * 1000)`: a duration in seconds converted to whole
milliseconds. -/
def msOf (q : ℚ) : ℤ := intTrunc (q * 1000)

/-- `MixPlayer._standard_assembly` (`mix_player.py` lines 570-584) on segment
lengths, in milliseconds; `gap_duration` is in seconds, converted inside via
`int(gap_duration * 1000)` as at line 573.  Returns
`(final length, total inserted silence)`: each junction inserts the gap
silence, then either crossfade-appends (output length shrinks by the
overlap) or concatenates.  The loop body is the named step function. -/
def standardStep (gapDuration : ℚ) (crossfadeDuration : ℕ) (acc : ℕ × ℕ)
    (seg : ℕ) : ℕ × ℕ :=
  let gapMs := (msOf gapDuration).toNat
  let mixed := acc.1 + gapMs
  if 0 < crossfadeDuration && crossfadeDuration < mixed && crossfadeDuration < seg then
    (mixed + seg - crossfadeDuration, acc.2 + gapMs)
  else (mixed + seg, acc.2 + gapMs)

def standardAssembly (segments : List ℕ) (gapDuration : ℚ)
    (crossfadeDuration : ℕ) : ℕ × ℕ :=
  match segments with
  | [] => (0, 0)
  | s0 :: rest => rest.foldl (standardStep gapDuration crossfadeDuration) (s0, 0)

/-- `MixPlayer._artistic_assembly` (`mix_player.py` lines 586-605): the
crossfade is forced up to at least 400 ms and the inserted silence per
junction is `max(0, int(gap_duration * 1000) - artistic_crossfade)` as at
line 594 (the code's `if len(gap_silence) > 0` guard only skips adding an
empty segment, which is the identity on lengths). -/
def artisticStep (gapDuration : ℚ) (crossfadeDuration : ℕ) (acc : ℕ × ℕ)
    (seg : ℕ) : ℕ × ℕ :=
  let artisticCrossfade := max crossfadeDuration 400
  let gap := ((max 0 (msOf gapDuration - (artisticCrossfade : ℤ)))).toNat
  let mixed := acc.1 + gap
  if artisticCrossfade < mixed && artisticCrossfade < seg then
    (mixed + seg - artisticCrossfade, acc.2 + gap)
  else (mixed + seg, acc.2 + gap)

def artisticAssembly (segments : List ℕ) (gapDuration : ℚ)
    (crossfadeDuration : ℕ) : ℕ × ℕ :=
  match segments with
  | [] => (0, 0)
  | s0 :: rest => rest.foldl (artisticStep gapDuration crossfadeDuration) (s0, 0)

/-- `MixPlayer._seamless_assembly` (`mix_player.py` lines 607-626): the
inserted silence per junction is `max(50, int(gap_duration * 1000) // 3)` as
at line 614 and the crossfade is capped at 30 ms. -/
def seamlessStep (gapDuration : ℚ) (crossfadeDuration : ℕ) (acc : ℕ × ℕ)
    (seg : ℕ) : ℕ × ℕ :=
  let minimalGap := max 50 ((msOf gapDuration).toNat / 3)
  let mixed := acc.1 + minimalGap
  let seamlessCrossfade := min crossfadeDuration 30
  if seamlessCrossfade < mixed && seamlessCrossfade < seg then
    (mixed + seg - seamlessCrossfade, acc.2 + minimalGap)
  else (mixed + seg, acc.2 + minimalGap)

def seamlessAssembly (segments : List ℕ) (gapDuration : ℚ)
    (crossfadeDuration : ℕ) : ℕ × ℕ :=
  match segments with
  | [] => (0, 0)
  | s0 :: rest => rest.foldl (seamlessStep gapDuration crossfadeDuration) (s0, 0)

/-- The tempo operation applied by `MixPlayer._change_tempo` (`mix_player.py`
lines 519-568) to a segment, as a symbolic DSP call.  `timeStretch` is
`librosa.effects.time_stretch` (tempo changes, pitch preserved); `resample`
is the simple-resample behaviour the non-pitch-preserving branch announces in
its comment (line 543). -/
inductive TempoOp where
  | timeStretch (rate : ℚ)
  | resample (rate : ℚ)
deriving DecidableEq, Repr

/-- The DSP call selected by `_change_tempo` for each value of
`preserve_pitch` (lines 539-544).  Both branches of the source execute
`librosa.effects.time_stretch(y, rate=factor)`, so both select the same
operation. -/
def changeTempoOp (preservePitch : Bool) (factor : ℚ) : TempoOp :=
  if preservePitch then TempoOp.timeStretch factor
  else TempoOp.timeStretch factor

/-- The behaviour the source comments and the spec describe for
`_change_tempo` (modelled from the spec: a pitch-preserving stretch by
default, a simple resample otherwise). -/
def changeTempoOpSpec (preservePitch : Bool) (factor : ℚ) : TempoOp :=
  if preservePitch then TempoOp.timeStretch factor
  else TempoOp.resample factor

/-- Length in milliseconds of the processed segment of one word
(`MixPlayer._process_word_segment`, lines 479-517): slice
`[start - padding, end + padding]` clamped to the file bounds, then an
optional tempo change (`stretchLen` abstracts the length effect of the DSP
round-trip through temporary files), then fades, which keep the length. -/
def processWordSegmentLen (audioLen : Str → ℕ) (stretchLen : ℕ → ℚ → ℕ)
    (w : WordMatch) (padding : ℚ) (tempoFactor : ℚ) : ℕ :=
  let audio := audioLen w.audio_path
  let paddingMs := msOf padding
  let startMs := max 0 (msOf w.start - paddingMs)
  let endMs := min (audio : ℤ) (msOf w.ending + paddingMs)
  let segLen := (endMs - startMs).toNat
  if tempoFactor ≠ 1 then stretchLen segLen tempoFactor else segLen

/-- `MixPlayer.generate_mixed_audio` (`mix_player.py` lines 408-477), on the
length semantics of segments: an empty composition is rejected with
`ValueError("Aucun mot à mixer")` at line 434-435 before any audio file is
decoded; otherwise each word is processed and the segments are assembled
according to `fade_mode` (volume normalization keeps lengths).  Returns the
final length in milliseconds. -/
def generateMixedAudio (audioLen : Str → ℕ) (stretchLen : ℕ → ℚ → ℕ)
    (composedSentence : ComposedSentence) (gapDuration : ℚ)
    (crossfadeDuration : ℕ) (wordPadding : ℚ) (fadeMode : Str)
    (tempoFactor : ℚ) : Except Str ℕ :=
  if composedSentence.words = [] then
    Except.error ("Aucun mot à mixer").toList
  else
    let segments := composedSentence.words.map
      (fun w => processWordSegmentLen audioLen stretchLen w wordPadding tempoFactor)
    if fadeMode = ("seamless").toList then
      Except.ok (seamlessAssembly segments gapDuration crossfadeDuration).1
    else if fadeMode = ("artistic").toList then
      Except.ok (artisticAssembly segments gapDuration crossfadeDuration).1
    else
      Except.ok (standardAssembly segments gapDuration crossfadeDuration).1

/-! ### Derived definitions used by the statements and proofs -/

/-- The action of `clean_word` on one character after the initial strip:
punctuation is deleted, the character is lowercased, NFD-decomposed, and the
combining marks are dropped.  `cleanWord s = (strip s).flatMap gcChar`. -/
def gcChar (c : Char) : List Char :=
  if isPunct c then [] else (nfdChar (lowerChar c)).filter (fun d => !(isCombining d))

/-- A character that every stage of `clean_word` leaves alone.  All characters
produced by `gcChar` satisfy this. -/
def FixedChar (c : Char) : Prop :=
  isPunct c = false ∧ lowerChar c = c ∧ nfdChar c = [c] ∧ isCombining c = false

instance : DecidablePred FixedChar := fun _ =>
  inferInstanceAs (Decidable (_ ∧ _ ∧ _ ∧ _))

/-- `⌈a / b⌉` on naturals. -/
def ceilDiv (a b : ℕ) : ℕ := (a + b - 1) / b

/-- How many times a composition used the source key `key`. -/
def countSel (sel : List WordMatch) (key : Str) : ℕ :=
  (sel.filter (fun m => sourceKey m = key)).length

/-- Index keys and bucket contents (as multisets) coincide; only the order
inside buckets may differ.  This is the property the index operations
actually preserve. -/
def IndexPerm (idx idx' : Index) : Prop :=
  idx'.map Prod.fst = idx.map Prod.fst ∧
    ∀ k, List.Perm (indexGet idx' k) (indexGet idx k)

/-- A `difflib` instantiation for concrete counterexamples (its value is
irrelevant on them: the exact tier fires first). -/
def trivialDifflib : Difflib := ⟨fun _ _ _ _ => [], fun _ _ => 0⟩

/-! ### Concrete fixtures for counterexamples and witnesses -/

/-- An occurrence of the word `a` with confidence 1 from source `f`,
speaker `x`. -/
def occHigh : WordMatch := ⟨['a'], ['a'], 0, 1, 1, 1, ['x'], [], ['f'], 0, []⟩

/-- An occurrence of the word `a` with confidence 0 from source `g`,
speaker `y`. -/
def occLow : WordMatch := ⟨['a'], ['a'], 0, 1, 1, 0, ['y'], [], ['g'], 0, []⟩

/-- Like `occLow` but with confidence 1: a second equal-confidence source. -/
def occEq : WordMatch := ⟨['a'], ['a'], 0, 1, 1, 1, ['y'], [], ['g'], 0, []⟩

/-- Index with two sources of unequal confidence for the word `a`. -/
def cexIndex : Index := [(['a'], [occHigh, occLow])]

/-- Index whose single bucket is *not* sorted by descending confidence. -/
def unsortedIndex : Index := [(['a'], [occLow, occHigh])]

/-- Index with two equal-confidence sources for the word `a`. -/
def eqIndex : Index := [(['a'], [occHigh, occEq])]

/-- A well-formed word entry for the word `a`. -/
def goodWordA : RawWord := ⟨some ['a'], some 0, some 1, some 1, some 1⟩

/-- A schema-violating word entry: its `start` field is missing. -/
def badWord : RawWord := ⟨some ['b'], none, some 2, some 1, some 1⟩

/-- A word entry whose word is pure punctuation (cleans to empty) and whose
four other fields are all missing: the loop `continue`s on it before ever
reading them. -/
def punctWord : RawWord := ⟨some ['.'], none, none, none, none⟩

/-- A well-formed word entry for the word `c`, after the bad one. -/
def goodWordC : RawWord := ⟨some ['c'], some 2, some 3, some 1, some 1⟩

/-- A transcript record whose segment holds a good entry, then a malformed
one, then another good entry. -/
def cexRecord : Record :=
  ⟨("f.wav").toList, ("audio/f.wav").toList, ("f_complete.json").toList,
   [⟨0, ['s'], [goodWordA, badWord, goodWordC]⟩]⟩

/-! ## Assembly lemmas -/

theorem seamlessStep_snd (g : ℚ) (cf : ℕ) (acc : ℕ × ℕ) (seg : ℕ) :
    (seamlessStep g cf acc seg).2 = acc.2 + max 50 ((msOf g).toNat / 3) := by
  simp only [seamlessStep]
  split <;> rfl

theorem seamless_silence (g : ℚ) (cf : ℕ) (rest : List ℕ) :
    ∀ a b : ℕ,
      (rest.foldl (seamlessStep g cf) (a, b)).2
        = b + rest.length * max 50 ((msOf g).toNat / 3) := by
  induction rest with
  | nil => intro a b; simp
  | cons s t ih =>
      intro a b
      rw [List.foldl_cons]
      have h1 : seamlessStep g cf (a, b) s
          = ((seamlessStep g cf (a, b) s).1, b + max 50 ((msOf g).toNat / 3)) := by
        rw [Prod.ext_iff]
        exact ⟨rfl, seamlessStep_snd g cf (a, b) s⟩
      rw [h1, ih, List.length_cons]
      ring

theorem artisticStep_snd (g : ℚ) (cf : ℕ) (acc : ℕ × ℕ) (seg : ℕ) :
    (artisticStep g cf acc seg).2
      = acc.2 + (max 0 (msOf g - ((max cf 400 : ℕ) : ℤ))).toNat := by
  simp only [artisticStep]
  split <;> rfl

theorem artistic_silence (g : ℚ) (cf : ℕ) (rest : List ℕ) :
    ∀ a b : ℕ,
      (rest.foldl (artisticStep g cf) (a, b)).2
        = b + rest.length * (max 0 (msOf g - ((max cf 400 : ℕ) : ℤ))).toNat := by
  induction rest with
  | nil => intro a b; simp
  | cons s t ih =>
      intro a b
      rw [List.foldl_cons]
      have h1 : artisticStep g cf (a, b) s
          = ((artisticStep g cf (a, b) s).1,
             b + (max 0 (msOf g - ((max cf 400 : ℕ) : ℤ))).toNat) := by
        rw [Prod.ext_iff]
        exact ⟨rfl, artisticStep_snd g cf (a, b) s⟩
      rw [h1, ih, List.length_cons]
      ring

/-- **C10** (confirmed).  In seamless assembly the silence inserted at each of
the `n-1` junctions is `max(50 ms, int(gap_duration·1000) // 3)`, hence at
least 50 ms per junction no matter how small `gap_duration` is — even
`gap_duration = 0` yields 50 ms of added silence per junction. -/
theorem C10_seamless_minimum_gap (segments : List ℕ) (gapDuration : ℚ) (cf : ℕ) :
    (seamlessAssembly segments gapDuration cf).2
        = (segments.length - 1) * max 50 ((msOf gapDuration).toNat / 3) ∧
    50 * (segments.length - 1)
        ≤ (seamlessAssembly segments gapDuration cf).2 := by
  have key : (seamlessAssembly segments gapDuration cf).2
      = (segments.length - 1) * max 50 ((msOf gapDuration).toNat / 3) := by
    match segments with
    | [] => simp [seamlessAssembly]
    | s0 :: rest =>
        rw [seamlessAssembly, seamless_silence, List.length_cons]
        simp
  refine ⟨key, ?_⟩
  rw [key, Nat.mul_comm]
  exact Nat.mul_le_mul_left _ (le_max_left _ _)

/-- **C2, counterexample**.  At `gap_duration = 0.3 s` (300 ms) and crossfade
50 ms, artistic assembly inserts **no** silence at a junction (the gap is
swallowed by the 400 ms crossfade) while seamless assembly inserts 100 ms, so
seamless is *not* strictly shorter in total silence. -/
theorem C2_counterexample :
    (msOf (3/10)).toNat = 300 ∧
    (artisticAssembly [1000, 1000] (3/10) 50).2 = 0 ∧
    (seamlessAssembly [1000, 1000] (3/10) 50).2 = 100 ∧
    ¬ ((seamlessAssembly [1000, 1000] (3/10) 50).2
        < (artisticAssembly [1000, 1000] (3/10) 50).2) := by
  have hq : ((3 : ℚ)/10 * 1000) = 300 := by norm_num
  have hms : msOf ((3 : ℚ)/10) = 300 := by
    show intTrunc ((3 : ℚ)/10 * 1000) = 300
    rw [hq]
    decide
  have hart : (artisticAssembly [1000, 1000] ((3 : ℚ)/10) 50).2 = 0 := by
    rw [artisticAssembly, artistic_silence, hms]
    decide
  have hseam : (seamlessAssembly [1000, 1000] ((3 : ℚ)/10) 50).2 = 100 := by
    rw [seamlessAssembly, seamless_silence, hms]
    decide
  refine ⟨by rw [hms]; rfl, hart, hseam, ?_⟩
  rw [hart, hseam]
  decide

/-- **C2, amended** (corrected).  For a composed sentence with at least two
segments, seamless assembly inserts strictly less total silence than artistic
assembly *provided* the crossfade is at most 400 ms and the gap is at least
601 ms (`int(gap_duration·1000) ≥ 601`); for smaller gaps the artistic
crossfade can swallow the whole gap and the claim fails (see the
counterexample). -/
theorem C2_amended (segments : List ℕ) (gapDuration : ℚ) (cf : ℕ)
    (hn : 2 ≤ segments.length) (hcf : cf ≤ 400)
    (hg : 601 ≤ (msOf gapDuration).toNat) :
    (seamlessAssembly segments gapDuration cf).2
      < (artisticAssembly segments gapDuration cf).2 := by
  match segments, hn with
  | s0 :: rest, hn2 =>
    have hlen : 1 ≤ rest.length := by
      rw [List.length_cons] at hn2
      omega
    rw [seamlessAssembly, artisticAssembly, seamless_silence, artistic_silence]
    have h400 : cf ⊔ 400 = 400 := max_eq_right hcf
    rw [h400]
    have hjunction : max 50 ((msOf gapDuration).toNat / 3)
        < ((0 : ℤ) ⊔ (msOf gapDuration - ((400 : ℕ) : ℤ))).toNat := by
      omega
    have hmul := mul_lt_mul_of_pos_left hjunction (show 0 < rest.length by omega)
    simpa using hmul

/-- **C2, amended, witness**: two 1-second segments, `gap_duration = 0.7 s`
(700 ms), crossfade 50 ms. -/
theorem C2_amended_witness :
    2 ≤ ([1000, 1000] : List ℕ).length ∧ 50 ≤ 400 ∧
    601 ≤ (msOf ((7 : ℚ)/10)).toNat ∧
    (seamlessAssembly [1000, 1000] ((7 : ℚ)/10) 50).2
      < (artisticAssembly [1000, 1000] ((7 : ℚ)/10) 50).2 := by
  have hq : ((7 : ℚ)/10 * 1000) = 700 := by norm_num
  have hms : msOf ((7 : ℚ)/10) = 700 := by
    show intTrunc ((7 : ℚ)/10 * 1000) = 700
    rw [hq]
    decide
  have hg : 601 ≤ (msOf ((7 : ℚ)/10)).toNat := by
    rw [hms]
    decide
  exact ⟨by decide, by decide, hg,
    C2_amended [1000, 1000] ((7 : ℚ)/10) 50 (by decide) (by decide) hg⟩

/-- **C8** (code_bug).  `_change_tempo` executes
`librosa.effects.time_stretch` in *both* branches of `preserve_pitch`
(lines 539-544), so the two selectable modes are identical, contradicting the
source's own comment («Changer tempo et pitch ensemble (simple resample)»)
and the spec's requirement that a non-pitch-preserving resample be
selectable.  At the failing input `preserve_pitch = False, factor = 1/2` the
code performs a pitch-preserving stretch, not the documented resample. -/
theorem C8_preserve_pitch_without_effect :
    (∀ (p : Bool) (f : ℚ), changeTempoOp p f = TempoOp.timeStretch f) ∧
    changeTempoOp false (1/2) = changeTempoOp true (1/2) ∧
    changeTempoOp false (1/2) ≠ changeTempoOpSpec false (1/2) := by
  refine ⟨fun p f => ?_, rfl, by simp [changeTempoOp, changeTempoOpSpec]⟩
  cases p <;> rfl

/-- **C9** (confirmed).  `generate_mixed_audio` rejects an empty composition
with the explicit `ValueError("Aucun mot à mixer")` before touching any
audio, and renders every composition with at least one selected word. -/
theorem C9_empty_composition_rejected (audioLen : Str → ℕ) (stretchLen : ℕ → ℚ → ℕ)
    (cs : ComposedSentence) (gapDuration : ℚ) (cf : ℕ) (padding : ℚ)
    (fadeMode : Str) (tempoFactor : ℚ) :
    ((generateMixedAudio audioLen stretchLen cs gapDuration cf padding fadeMode tempoFactor
        = Except.error ("Aucun mot à mixer").toList) ↔ cs.words = []) ∧
    ((∃ n, generateMixedAudio audioLen stretchLen cs gapDuration cf padding fadeMode
        tempoFactor = Except.ok n) ↔ cs.words ≠ []) := by
  rw [generateMixedAudio]
  by_cases h : cs.words = []
  · simp [h]
  · rw [if_neg h]
    have hok : ∃ n,
        ((if fadeMode = ("seamless").toList then
          Except.ok (seamlessAssembly (cs.words.map
            (fun w => processWordSegmentLen audioLen stretchLen w padding tempoFactor))
            gapDuration cf).1
        else if fadeMode = ("artistic").toList then
          Except.ok (artisticAssembly (cs.words.map
            (fun w => processWordSegmentLen audioLen stretchLen w padding tempoFactor))
            gapDuration cf).1
        else
          Except.ok (standardAssembly (cs.words.map
            (fun w => processWordSegmentLen audioLen stretchLen w padding tempoFactor))
            gapDuration cf).1 : Except Str ℕ)) = Except.ok n := by
      split
      · exact ⟨_, rfl⟩
      · split
        · exact ⟨_, rfl⟩
        · exact ⟨_, rfl⟩
    obtain ⟨n, hn⟩ := hok
    rw [hn]
    simp [h]

/-- **C6** (confirmed).  For every composition (composition never adjusts
tempo; tempo belongs to assembly), the `total_duration` of the composed
sentence equals the sum of the selected occurrences' durations plus
`max_gap_duration` times `n - 1` (natural subtraction: for `n ≤ 1` this is
the bare sum). -/
theorem C6_total_duration (D : Difflib) (idx : Index) (words : List Str)
    (preferredSpeakers : Option (List Str)) (minConfidence maxGapDuration : ℚ)
    (prioritizeDiversity : Bool) :
    (composeSentence D idx words preferredSpeakers minConfidence maxGapDuration
        prioritizeDiversity).1.total_duration
      = (((composeSentence D idx words preferredSpeakers minConfidence maxGapDuration
          prioritizeDiversity).1.words.map (fun w => w.duration)).sum)
        + maxGapDuration
          * (((composeSentence D idx words preferredSpeakers minConfidence maxGapDuration
              prioritizeDiversity).1.words.length - 1 : ℕ) : ℚ) := by
  rw [composeSentence]
  simp only
  generalize (composeLoop D preferredSpeakers minConfidence prioritizeDiversity words
      ⟨[], [], [], idx⟩).selected = sel
  split
  case isTrue h =>
      have h1 : (1 : ℕ) ≤ sel.length := Nat.le_of_lt h
      congr 1
      rw [Nat.cast_sub h1]
      norm_num
  case isFalse h =>
      have h0 : sel.length - 1 = 0 := by omega
      rw [h0]
      norm_num

/-- **C7, counterexample**.  `clean_word` is not idempotent: on `"a -"` the
punctuation strip exposes a trailing space (`"a "`), which a second
application removes (`"a"`). -/
theorem C7_counterexample :
    cleanWord (cleanWord ("a -").toList) ≠ cleanWord ("a -").toList := by
  decide

/-! ## Normalizer lemmas (claim C7) -/

theorem lookup_mem {α β : Type} [BEq α] [LawfulBEq α] (l : List (α × β)) (a : α)
    (b : β) (h : l.lookup a = some b) : (a, b) ∈ l := by
  induction l with
  | nil => simp at h
  | cons p t ih =>
      rcases p with ⟨k, v⟩
      rw [List.lookup_cons] at h
      cases hak : a == k with
      | false => rw [hak] at h; exact List.mem_cons_of_mem _ (ih h)
      | true =>
          rw [hak] at h
          cases h
          have hk : a = k := beq_iff_eq.mp hak
          rw [hk]
          exact List.mem_cons_self _ _

theorem lowerTable_vals_fixed :
    ∀ p ∈ lowerTable, ∀ d ∈ (nfdChar p.2).filter (fun x => !(isCombining x)),
      FixedChar d := by
  decide

theorem nfdTable_vals_fixed :
    ∀ p ∈ nfdTable, ∀ d ∈ p.2.filter (fun x => !(isCombining x)), FixedChar d := by
  decide

theorem gcChar_fixed : ∀ c : Char, ∀ d ∈ gcChar c, FixedChar d := by
  intro c d hd
  rw [gcChar] at hd
  by_cases hp : isPunct c
  · simp [hp] at hd
  · rw [if_neg hp] at hd
    cases h1 : lowerTable.lookup c with
    | some v =>
        have hv : (c, v) ∈ lowerTable := lookup_mem _ _ _ h1
        have hlc : lowerChar c = v := by rw [lowerChar, h1]; rfl
        rw [hlc] at hd
        exact lowerTable_vals_fixed (c, v) hv d hd
    | none =>
        have hlc : lowerChar c = c := by rw [lowerChar, h1]; rfl
        rw [hlc] at hd
        cases h2 : nfdTable.lookup c with
        | some w =>
            have hw : (c, w) ∈ nfdTable := lookup_mem _ _ _ h2
            have hnc : nfdChar c = w := by rw [nfdChar, h2]; rfl
            rw [hnc] at hd
            exact nfdTable_vals_fixed (c, w) hw d hd
        | none =>
            have hnc : nfdChar c = [c] := by rw [nfdChar, h2]; rfl
            rw [hnc] at hd
            by_cases hc : isCombining c
            · simp [hc] at hd
            · simp only [List.filter_cons, List.filter_nil] at hd
              rw [Bool.not_eq_true] at hc  -- isCombining c = false?
              rw [hc] at hd
              simp at hd
              subst hd
              exact ⟨by simpa using hp, hlc, hnc, hc⟩

theorem gcChar_of_fixed (c : Char) (h : FixedChar c) : gcChar c = [c] := by
  obtain ⟨h1, h2, h3, h4⟩ := h
  rw [gcChar, if_neg (by simp [h1]), h2, h3]
  simp [h4]

theorem flatMap_gcChar_of_fixed (s : Str) (h : ∀ c ∈ s, FixedChar c) :
    s.flatMap gcChar = s := by
  induction s with
  | nil => rfl
  | cons c t ih =>
      rw [List.flatMap_cons, gcChar_of_fixed c (h c (List.mem_cons_self _ _)),
        ih (fun x hx => h x (List.mem_cons_of_mem _ hx))]
      rfl

theorem cleanWord_eq_flatMap (s : Str) : cleanWord s = (strip s).flatMap gcChar := by
  rw [cleanWord]
  simp only [rmPunct]
  generalize strip s = t
  induction t with
  | nil => rfl
  | cons c u ih =>
      rw [List.flatMap_cons, List.filter_cons]
      by_cases hp : isPunct c
      · have hn : ¬((!isPunct c) = true) := by simp [hp]
        rw [if_neg hn, ih]
        have hg : gcChar c = [] := by rw [gcChar, if_pos hp]
        rw [hg, List.nil_append]
      · have hpc : (!isPunct c) = true := by simp [hp]
        rw [if_pos hpc, List.map_cons, List.flatMap_cons, List.filter_append, ih]
        congr 1
        rw [gcChar, if_neg hp]

theorem mem_of_mem_strip {c : Char} {s : Str} (h : c ∈ strip s) : c ∈ s := by
  have h2 : c ∈ List.rdropWhile isWS s := (List.dropWhile_suffix isWS).subset h
  rw [List.rdropWhile, List.mem_reverse] at h2
  have h3 : c ∈ s.reverse := (List.dropWhile_suffix isWS).subset h2
  rwa [List.mem_reverse] at h3

theorem cleanWord_chars_fixed (s : Str) : ∀ d ∈ cleanWord s, FixedChar d := by
  intro d hd
  rw [cleanWord_eq_flatMap, List.mem_flatMap] at hd
  obtain ⟨c, _, hdc⟩ := hd
  exact gcChar_fixed c d hdc

theorem cleanWord_of_fixed (t : Str) (h : ∀ c ∈ t, FixedChar c) :
    cleanWord t = strip t := by
  rw [cleanWord_eq_flatMap]
  exact flatMap_gcChar_of_fixed _ (fun c hc => h c (mem_of_mem_strip hc))

theorem strip_strip (s : Str) : strip (strip s) = strip s := by
  have h2 : List.rdropWhile isWS (strip s) = strip s := by
    rw [List.rdropWhile_eq_self_iff]
    intro hl
    have hsfx : strip s <:+ List.rdropWhile isWS s := List.dropWhile_suffix isWS
    obtain ⟨t, ht⟩ := hsfx
    have hv : List.rdropWhile isWS s ≠ [] := by
      rw [← ht]
      intro hc
      exact hl (List.append_eq_nil.mp hc).2
    have heq : (strip s).getLast? = (List.rdropWhile isWS s).getLast? := by
      conv_rhs => rw [← ht]
      rw [List.getLast?_append, List.getLast?_eq_getLast (strip s) hl]
      rfl
    have hgl : (strip s).getLast hl = (List.rdropWhile isWS s).getLast hv := by
      have hA := List.getLast?_eq_getLast (strip s) hl
      have hB := List.getLast?_eq_getLast (List.rdropWhile isWS s) hv
      rw [hA, hB] at heq
      exact Option.some.inj heq
    rw [hgl]
    exact List.rdropWhile_last_not isWS s hv
  calc strip (strip s)
      = List.dropWhile isWS (List.rdropWhile isWS (strip s)) := rfl
    _ = List.dropWhile isWS (strip s) := by rw [h2]
    _ = List.dropWhile isWS (List.dropWhile isWS (List.rdropWhile isWS s)) := rfl
    _ = List.dropWhile isWS (List.rdropWhile isWS s) :=
        List.dropWhile_idempotent isWS _
    _ = strip s := rfl

/-- **C7, amended** (corrected).  `clean_word` is not idempotent (see the
counterexample), but a second application reduces to a bare whitespace strip,
so two applications reach a fixed point: `clean_word ∘ clean_word` is
idempotent, i.e. `cleanWord (cleanWord (cleanWord s)) = cleanWord (cleanWord
s)` for every string. -/
theorem C7_amended (s : Str) :
    cleanWord (cleanWord (cleanWord s)) = cleanWord (cleanWord s) := by
  have hy : ∀ d ∈ cleanWord s, FixedChar d := cleanWord_chars_fixed s
  have h1 : cleanWord (cleanWord s) = strip (cleanWord s) := cleanWord_of_fixed _ hy
  have h2 : cleanWord (strip (cleanWord s)) = strip (strip (cleanWord s)) :=
    cleanWord_of_fixed _ (fun c hc => hy c (mem_of_mem_strip hc))
  rw [h1, h2, strip_strip]

/-! ## Index lemmas (claims C3 and C4) -/

theorem indexSet_keys (idx : Index) (k : Str) (b : List WordMatch) :
    (indexSet idx k b).map Prod.fst = idx.map Prod.fst := by
  induction idx with
  | nil => rfl
  | cons p t ih =>
      have hc : indexSet (p :: t) k b
          = (if (p.1 == k) = true then (p.1, b) else p) :: indexSet t k b := rfl
      rw [hc, List.map_cons, List.map_cons, ih]
      congr 1
      split <;> rfl

theorem lookup_indexSet_ne (idx : Index) (k : Str) (b : List WordMatch) (k' : Str)
    (h : (k' == k) = false) : (indexSet idx k b).lookup k' = idx.lookup k' := by
  induction idx with
  | nil => rfl
  | cons p t ih =>
      rcases p with ⟨a, c⟩
      have hc : indexSet ((a, c) :: t) k b
          = (if (a == k) = true then (a, b) else (a, c)) :: indexSet t k b := rfl
      rw [hc]
      by_cases hak : (a == k) = true
      case pos =>
          rw [if_pos hak]
          have hka : (k' == a) = false := by
            have h1 : a = k := beq_iff_eq.mp hak
            have h2 : k' ≠ k := by
              intro he
              rw [he, beq_self_eq_true] at h
              exact Bool.noConfusion h
            rw [beq_eq_false_iff_ne, h1]
            exact h2
          rw [List.lookup_cons, List.lookup_cons, hka]
          exact ih
      case neg =>
          rw [if_neg hak]
          rw [List.lookup_cons, List.lookup_cons]
          cases hka : k' == a with
          | true => rfl
          | false => exact ih

theorem lookup_indexSet_self (idx : Index) (k : Str) (b : List WordMatch) :
    (indexSet idx k b).lookup k = (idx.lookup k).map (fun _ => b) := by
  induction idx with
  | nil => rfl
  | cons p t ih =>
      rcases p with ⟨a, c⟩
      have hc : indexSet ((a, c) :: t) k b
          = (if (a == k) = true then (a, b) else (a, c)) :: indexSet t k b := rfl
      rw [hc]
      by_cases hak : (a == k) = true
      case pos =>
          rw [if_pos hak]
          have hka : (k == a) = true := by
            rw [beq_iff_eq]
            exact (beq_iff_eq.mp hak).symm
          rw [List.lookup_cons, List.lookup_cons, hka]
          rfl
      case neg =>
          rw [if_neg hak]
          have hka : (k == a) = false := by
            rw [beq_eq_false_iff_ne]
            intro he
            rw [he, beq_self_eq_true] at hak
            exact hak rfl
          rw [List.lookup_cons, List.lookup_cons, hka]
          exact ih

theorem indexGet_indexSet_perm (idx : Index) (k : Str) (b : List WordMatch)
    (hb : b.Perm (indexGet idx k)) (k' : Str) :
    (indexGet (indexSet idx k b) k').Perm (indexGet idx k') := by
  by_cases hk : k' = k
  · subst hk
    rw [indexGet, lookup_indexSet_self]
    cases h : idx.lookup k' with
    | none => rw [indexGet, h]; rfl
    | some c => exact hb
  · rw [indexGet, lookup_indexSet_ne _ _ _ _ (beq_eq_false_iff_ne.mpr hk), ← indexGet]

theorem searchWord_preserves (D : Difflib) (idx : Index) (term : Str)
    (maxResults : ℕ) :
    (searchWord D idx term maxResults).2.map Prod.fst = idx.map Prod.fst ∧
    ∀ k, (indexGet (searchWord D idx term maxResults).2 k).Perm (indexGet idx k) := by
  rw [searchWord]
  simp only
  by_cases h : indexGet idx (cleanWord term) ≠ []
  · rw [if_pos h]
    refine ⟨indexSet_keys _ _ _, fun k => ?_⟩
    exact indexGet_indexSet_perm _ _ _ (List.perm_insertionSort confGe _) k
  · rw [if_neg h]
    have hsnd : ∀ (e : List WordMatch × Index), e.2 = idx →
        e.2.map Prod.fst = idx.map Prod.fst ∧
          ∀ k, (indexGet e.2 k).Perm (indexGet idx k) := by
      intro e he
      rw [he]
      exact ⟨rfl, fun k => List.Perm.refl _⟩
    apply hsnd
    split
    · rfl
    · split
      · rfl
      · split
        · split
          · rfl
          · rfl
        · rfl

theorem findBest_idx (D : Difflib) (idx : Index) (term : Str)
    (pref : Option (List Str)) (minConf : ℚ) (used : Ledger) (pd : Bool) :
    (findBestWordMatch D idx term pref minConf used pd).2
      = (searchWord D idx term 50).2 := by
  rw [findBestWordMatch.eq_def]
  simp only
  split
  · rfl
  · split <;> rfl

theorem composeLoop_preserves (D : Difflib) (pref : Option (List Str))
    (minConf : ℚ) (pd : Bool) :
    ∀ (ws : List Str) (st : ComposeState),
      (composeLoop D pref minConf pd ws st).idx.map Prod.fst = st.idx.map Prod.fst ∧
      ∀ k, (indexGet (composeLoop D pref minConf pd ws st).idx k).Perm
        (indexGet st.idx k) := by
  intro ws
  induction ws with
  | nil => intro st; exact ⟨rfl, fun k => List.Perm.refl _⟩
  | cons w t ih =>
      intro st
      simp only [composeLoop]
      have hstep := searchWord_preserves D st.idx w 50
      have hres := findBest_idx D st.idx w pref minConf st.used pd
      rcases hm : (findBestWordMatch D st.idx w pref minConf st.used pd).1 with _ | m
      · rw [hres]
        obtain ⟨ih1, ih2⟩ := ih ⟨st.selected, st.missing ++ [w], st.used,
          (searchWord D st.idx w 50).2⟩
        exact ⟨ih1.trans hstep.1, fun k => (ih2 k).trans (hstep.2 k)⟩
      · rw [hres]
        obtain ⟨ih1, ih2⟩ := ih ⟨st.selected ++ [m], st.missing,
          bumpUsage st.used (sourceKey m), (searchWord D st.idx w 50).2⟩
        exact ⟨ih1.trans hstep.1, fun k => (ih2 k).trans (hstep.2 k)⟩

/-- **C3, counterexample**.  The index is *not* immutable under `search_word`:
the exact tier's in-place `exact_matches.sort(...)` (line 188) reorders the
bucket.  On an index whose bucket for `a` is `[occLow, occHigh]` (confidences
0, 1) a single search permutes the bucket to `[occHigh, occLow]`. -/
theorem C3_counterexample :
    indexGet (searchWord trivialDifflib unsortedIndex ['a'] 10).2 ['a']
        = [occHigh, occLow] ∧
    indexGet unsortedIndex ['a'] = [occLow, occHigh] ∧
    (searchWord trivialDifflib unsortedIndex ['a'] 10).2 ≠ unsortedIndex := by
  decide

/-- **C3, amended** (corrected).  After `build`, search/select/compose never
add or remove index keys, never add or remove occurrences, and never reorder
the key sequence: the keys (in order) and every bucket's contents *as a
multiset* are preserved.  But element order inside a searched bucket is *not*
preserved: the exact tier's in-place sort reorders it (counterexample above),
so each bucket is only guaranteed to be a permutation of the original. -/
theorem C3_amended :
    (∀ (D : Difflib) (idx : Index) (term : Str) (maxResults : ℕ),
      (searchWord D idx term maxResults).2.map Prod.fst = idx.map Prod.fst ∧
      ∀ k, (indexGet (searchWord D idx term maxResults).2 k).Perm (indexGet idx k)) ∧
    (∀ (D : Difflib) (idx : Index) (words : List Str)
      (pref : Option (List Str)) (minConf maxGap : ℚ) (pd : Bool),
      (composeSentence D idx words pref minConf maxGap pd).2.map Prod.fst
          = idx.map Prod.fst ∧
      ∀ k, (indexGet (composeSentence D idx words pref minConf maxGap pd).2 k).Perm
        (indexGet idx k)) := by
  refine ⟨searchWord_preserves, ?_⟩
  intro D idx words pref minConf maxGap pd
  rw [composeSentence]
  simp only
  exact composeLoop_preserves D pref minConf pd words ⟨[], [], [], idx⟩

/-- **C4** (confirmed).  When the normalized term has an exact bucket, the
exact tier fires: the result is that bucket sorted by descending confidence
and truncated to `max_results`; every returned occurrence's canonical key is
the normalized term (for a well-formed index), so no morphological, fuzzy or
short-word-tier occurrence can appear. -/
theorem C4_exact_tier (D : Difflib) (idx : Index) (term : Str) (maxResults : ℕ)
    (hwf : ∀ k m, m ∈ indexGet idx k → m.cleaned_word = k)
    (hne : indexGet idx (cleanWord term) ≠ []) :
    (searchWord D idx term maxResults).1
        = (sortByConfDesc (indexGet idx (cleanWord term))).take maxResults ∧
    List.Sorted confGe (searchWord D idx term maxResults).1 ∧
    (searchWord D idx term maxResults).1.length ≤ maxResults ∧
    ∀ m ∈ (searchWord D idx term maxResults).1, m.cleaned_word = cleanWord term := by
  have hres : (searchWord D idx term maxResults).1
      = (sortByConfDesc (indexGet idx (cleanWord term))).take maxResults := by
    rw [searchWord]
    simp only
    rw [if_pos hne]
  refine ⟨hres, ?_, ?_, ?_⟩
  · rw [hres]
    exact List.Pairwise.sublist (List.take_sublist _ _)
      (List.sorted_insertionSort confGe _)
  · rw [hres]
    exact List.length_take_le _ _
  · intro m hm
    rw [hres] at hm
    have hm2 : m ∈ sortByConfDesc (indexGet idx (cleanWord term)) :=
      List.mem_of_mem_take hm
    have hm3 : m ∈ indexGet idx (cleanWord term) :=
      ((List.perm_insertionSort confGe _).mem_iff).mp hm2
    exact hwf _ m hm3

/-- **C4, witness**: searching `a` in the two-occurrence index returns the
bucket sorted `[occHigh, occLow]`. -/
theorem C4_exact_tier_witness :
    (∀ k m, m ∈ indexGet unsortedIndex k → m.cleaned_word = k) ∧
    indexGet unsortedIndex (cleanWord ['a']) ≠ [] ∧
    (searchWord trivialDifflib unsortedIndex ['a'] 10).1
        = (sortByConfDesc (indexGet unsortedIndex (cleanWord ['a']))).take 10 := by
  have hwf : ∀ k m, m ∈ indexGet unsortedIndex k → m.cleaned_word = k := by
    intro k m hm
    cases hk : k == (['a'] : Str) with
    | true =>
        have hk2 : k = ['a'] := beq_iff_eq.mp hk
        subst hk2
        have hbucket : indexGet unsortedIndex ['a'] = [occLow, occHigh] := by decide
        rw [hbucket] at hm
        simp only [List.mem_cons, List.not_mem_nil, or_false] at hm
        rcases hm with hm | hm
        · rw [hm]; decide
        · rw [hm]; decide
    | false =>
        have hnone : unsortedIndex.lookup k = none := by
          rw [unsortedIndex, List.lookup_cons, hk]
          rfl
        rw [indexGet, hnone] at hm
        simp at hm
  refine ⟨hwf, by decide, ?_⟩
  exact (C4_exact_tier trivialDifflib unsortedIndex ['a'] 10 hwf (by decide)).1

/-! ## Indexer lemmas (claim C5) -/

theorem loadWords_raises_cons (r : Record) (seg : Segment) (idx : Index)
    (w : RawWord) (ws : List RawWord) (hw : wordEntryRaises w = true) :
    loadWords r seg idx (w :: ws) = (idx, true) := by
  rcases w with ⟨ow, os, oe, od, oc⟩
  cases ow with
  | none => rfl
  | some wd =>
      simp only [wordEntryRaises] at hw
      simp only [loadWords]
      by_cases hc : cleanWord wd = []
      · rw [if_pos hc] at hw
        exact absurd hw (by simp)
      · rw [if_neg hc] at hw
        rw [if_neg hc]
        cases os <;> cases oe <;> cases od <;> cases oc <;> simp_all

theorem loadWords_skip_cons (r : Record) (seg : Segment) (idx : Index)
    (w : RawWord) (ws : List RawWord) (wd : Str)
    (hwd : w.word = some wd) (hc : cleanWord wd = []) :
    loadWords r seg idx (w :: ws) = loadWords r seg idx ws := by
  rcases w with ⟨ow, os, oe, od, oc⟩
  simp only at hwd
  subst hwd
  simp only [loadWords]
  rw [if_pos hc]

theorem loadWords_append_raises (r : Record) (seg : Segment) (idx : Index)
    (pre : List RawWord) (w : RawWord) (post : List RawWord)
    (hw : wordEntryRaises w = true) :
    loadWords r seg idx (pre ++ w :: post) = ((loadWords r seg idx pre).1, true) := by
  induction pre generalizing idx with
  | nil =>
      rw [List.nil_append, loadWords_raises_cons r seg idx w post hw]
      rfl
  | cons p ps ih =>
      rw [List.cons_append]
      rcases p with ⟨ow, os, oe, od, oc⟩
      cases ow with
      | none => rfl
      | some pwd =>
          simp only [loadWords]
          by_cases hpc : cleanWord pwd = []
          · rw [if_pos hpc, if_pos hpc]
            exact ih idx
          · rw [if_neg hpc, if_neg hpc]
            cases os <;> cases oe <;> cases od <;> cases oc <;>
              first | rfl | exact ih _

theorem loadWords_append_skip (r : Record) (seg : Segment) (idx : Index)
    (pre : List RawWord) (w : RawWord) (post : List RawWord) (wd : Str)
    (hwd : w.word = some wd) (hc : cleanWord wd = []) :
    loadWords r seg idx (pre ++ w :: post) = loadWords r seg idx (pre ++ post) := by
  induction pre generalizing idx with
  | nil =>
      rw [List.nil_append, List.nil_append]
      exact loadWords_skip_cons r seg idx w post wd hwd hc
  | cons p ps ih =>
      rw [List.cons_append, List.cons_append]
      rcases p with ⟨ow, os, oe, od, oc⟩
      cases ow with
      | none => rfl
      | some pwd =>
          simp only [loadWords]
          by_cases hpc : cleanWord pwd = []
          · rw [if_pos hpc, if_pos hpc]
            exact ih idx
          · rw [if_neg hpc, if_neg hpc]
            cases os <;> cases oe <;> cases od <;> cases oc <;>
              first | rfl | exact ih _

theorem loadWords_congr (fn ap jp : Str) (segs1 segs2 : List Segment)
    (segId : ℤ) (spk : Str) (ws1 ws2 : List RawWord) (idx : Index)
    (l : List RawWord) :
    loadWords ⟨fn, ap, jp, segs1⟩ ⟨segId, spk, ws1⟩ idx l
      = loadWords ⟨fn, ap, jp, segs2⟩ ⟨segId, spk, ws2⟩ idx l := by
  induction l generalizing idx with
  | nil => rfl
  | cons p t ih =>
      rcases p with ⟨ow, os, oe, od, oc⟩
      cases ow with
      | none => rfl
      | some wd =>
          simp only [loadWords]
          by_cases hc : cleanWord wd = []
          · rw [if_pos hc, if_pos hc]
            exact ih idx
          · rw [if_neg hc, if_neg hc]
            cases os <;> cases oe <;> cases od <;> cases oc <;>
              first | rfl | exact ih _

theorem loadSegments_congr (fn ap jp : Str) (segs1 segs2 : List Segment)
    (idx : Index) (l : List Segment) :
    loadSegments ⟨fn, ap, jp, segs1⟩ idx l
      = loadSegments ⟨fn, ap, jp, segs2⟩ idx l := by
  induction l generalizing idx with
  | nil => rfl
  | cons seg rest ih =>
      rcases seg with ⟨sid, spk, ws⟩
      simp only [loadSegments]
      rw [loadWords_congr fn ap jp segs1 segs2 sid spk ws ws idx ws]
      by_cases hx : (loadWords ⟨fn, ap, jp, segs2⟩ ⟨sid, spk, ws⟩ idx ws).2 = true
      · rw [if_pos hx, if_pos hx]
      · rw [if_neg hx, if_neg hx]
        exact ih _

/-- **C5, counterexample**.  In a record holding a good entry (`a`), then an
entry whose word `b` cleans to something non-empty but whose `start` field is
missing, then another good entry (`c`), the word `c` is *not* indexed: the
`KeyError` on `word_data['start']` propagates to the record-level `except`,
so the rest of the record — not just the single bad entry — is skipped. -/
theorem C5_counterexample :
    wordEntryRaises badWord = true ∧
    indexGet (loadSingleTranscription [] cexRecord) ['a'] ≠ [] ∧
    indexGet (loadSingleTranscription [] cexRecord) ['c'] = [] := by
  decide

/-- **C5, amended** (corrected).  A word entry on which the loop raises
(`word` missing, or a non-empty-cleaning word with a missing
timing/confidence field) aborts indexing of the *remainder of its record*:
entries before it stay indexed (the dict was already mutated) and every
later entry and segment of that record is dropped.  An entry whose word
cleans to empty is skipped individually — even when its other fields are
missing — because the `continue` at line 146 fires before those fields are
read, so the rest of the record is indexed as if the entry were absent.
Either way, indexing of the other records continues
(`load_transcriptions` folds over the records and the per-record `except`
confines the failure). -/
theorem C5_amended (idx : Index) (fn ap jp : Str) (segId : ℤ) (spk : Str)
    (pre : List RawWord) (w : RawWord) (post : List RawWord)
    (moreSegs : List Segment) :
    (wordEntryRaises w = true →
      loadSingleTranscription idx
          ⟨fn, ap, jp, ⟨segId, spk, pre ++ w :: post⟩ :: moreSegs⟩
        = (loadWords ⟨fn, ap, jp, ⟨segId, spk, pre ++ w :: post⟩ :: moreSegs⟩
            ⟨segId, spk, pre ++ w :: post⟩ idx pre).1) ∧
    (∀ wd : Str, w.word = some wd → cleanWord wd = [] →
      loadSingleTranscription idx
          ⟨fn, ap, jp, ⟨segId, spk, pre ++ w :: post⟩ :: moreSegs⟩
        = loadSingleTranscription idx
            ⟨fn, ap, jp, ⟨segId, spk, pre ++ post⟩ :: moreSegs⟩) ∧
    (∀ (records moreRecords : List Record),
      (records ++ moreRecords).foldl loadSingleTranscription idx
        = moreRecords.foldl loadSingleTranscription
            (records.foldl loadSingleTranscription idx)) := by
  refine ⟨?_, ?_, ?_⟩
  · intro hw
    rw [loadSingleTranscription]
    simp only [loadSegments]
    rw [loadWords_append_raises _ _ _ _ _ _ hw]
    simp
  · intro wd hwd hc
    rw [loadSingleTranscription, loadSingleTranscription]
    simp only [loadSegments]
    rw [loadWords_append_skip _ _ _ pre w post wd hwd hc]
    rw [loadWords_congr fn ap jp (⟨segId, spk, pre ++ w :: post⟩ :: moreSegs)
      (⟨segId, spk, pre ++ post⟩ :: moreSegs) segId spk (pre ++ w :: post)
      (pre ++ post) idx (pre ++ post)]
    by_cases hx : (loadWords ⟨fn, ap, jp, ⟨segId, spk, pre ++ post⟩ :: moreSegs⟩
        ⟨segId, spk, pre ++ post⟩ idx (pre ++ post)).2 = true
    · rw [if_pos hx, if_pos hx]
    · rw [if_neg hx, if_neg hx]
      rw [loadSegments_congr fn ap jp (⟨segId, spk, pre ++ w :: post⟩ :: moreSegs)
        (⟨segId, spk, pre ++ post⟩ :: moreSegs) _ moreSegs]
  · intro records moreRecords
    rw [List.foldl_append]

/-- **C5, amended, witness**: the raising entry `badWord` truncates the
record at its position, while the punctuation-only entry `punctWord` — all
four other fields missing — is skipped with the rest of the record indexed
as if it were absent. -/
theorem C5_amended_witness :
    wordEntryRaises badWord = true ∧
    loadSingleTranscription []
        ⟨("f.wav").toList, ("audio/f.wav").toList, ("f_complete.json").toList,
         [⟨0, ['s'], [goodWordA] ++ badWord :: [goodWordC]⟩]⟩
      = (loadWords
          ⟨("f.wav").toList, ("audio/f.wav").toList, ("f_complete.json").toList,
           [⟨0, ['s'], [goodWordA] ++ badWord :: [goodWordC]⟩]⟩
          ⟨0, ['s'], [goodWordA] ++ badWord :: [goodWordC]⟩ [] [goodWordA]).1 ∧
    punctWord.word = some ['.'] ∧
    cleanWord ['.'] = [] ∧
    loadSingleTranscription []
        ⟨("f.wav").toList, ("audio/f.wav").toList, ("f_complete.json").toList,
         [⟨0, ['s'], [goodWordA] ++ punctWord :: [goodWordC]⟩]⟩
      = loadSingleTranscription []
          ⟨("f.wav").toList, ("audio/f.wav").toList, ("f_complete.json").toList,
           [⟨0, ['s'], [goodWordA] ++ [goodWordC]⟩]⟩ :=
  ⟨by decide,
   (C5_amended [] ("f.wav").toList ("audio/f.wav").toList ("f_complete.json").toList
     0 ['s'] [goodWordA] badWord [goodWordC] []).1 (by decide),
   by decide, by decide,
   (C5_amended [] ("f.wav").toList ("audio/f.wav").toList ("f_complete.json").toList
     0 ['s'] [goodWordA] punctWord [goodWordC] []).2.1 ['.'] (by decide) (by decide)⟩

/-! ## Ledger lemmas (claim C1) -/

theorem lookup_append {β : Type} (l1 l2 : List (Str × β)) (key : Str) :
    (l1 ++ l2).lookup key
      = match l1.lookup key with
        | some v => some v
        | none => l2.lookup key := by
  induction l1 with
  | nil => rfl
  | cons p t ih =>
      rcases p with ⟨a, c⟩
      rw [List.cons_append, List.lookup_cons, List.lookup_cons]
      cases key == a with
      | true => rfl
      | false => exact ih

theorem lookup_bump_self (u : Ledger) (k : Str) :
    (bumpUsage u k).lookup k
      = some ((u.lookup k).getD 0 + 1) := by
  rw [bumpUsage]
  by_cases hs : (u.lookup k).isSome
  · rw [if_pos hs]
    obtain ⟨v, hv⟩ := Option.isSome_iff_exists.mp hs
    rw [hv]
    induction u with
    | nil => simp at hv
    | cons p t ih =>
        rcases p with ⟨a, c⟩
        have hc : List.map (fun p => if p.1 == k then (p.1, p.2 + 1) else p)
            ((a, c) :: t)
            = (if (a == k) = true then (a, c + 1) else (a, c))
              :: List.map (fun p => if p.1 == k then (p.1, p.2 + 1) else p) t := rfl
        rw [hc]
        by_cases hak : (a == k) = true
        case pos =>
            rw [if_pos hak]
            have hka : (k == a) = true := by
              rw [beq_iff_eq]
              exact (beq_iff_eq.mp hak).symm
            rw [List.lookup_cons, hka]
            rw [List.lookup_cons, hka] at hv
            have hv' : some c = some v := hv
            cases hv'
            rfl
        case neg =>
            rw [if_neg hak]
            have hka : (k == a) = false := by
              rw [beq_eq_false_iff_ne]
              intro he
              rw [he, beq_self_eq_true] at hak
              exact hak rfl
            rw [List.lookup_cons, hka]
            rw [List.lookup_cons, hka] at hv
            have hv' : List.lookup k t = some v := hv
            exact ih (by rw [hv']; rfl) hv'
  · rw [if_neg hs]
    have hn : u.lookup k = none := Option.not_isSome_iff_eq_none.mp hs
    rw [lookup_append, hn]
    simp [List.lookup_cons]

theorem lookup_bump_ne (u : Ledger) (k key : Str) (h : key ≠ k) :
    (bumpUsage u k).lookup key = u.lookup key := by
  rw [bumpUsage]
  by_cases hs : (u.lookup k).isSome
  · rw [if_pos hs]
    clear hs
    induction u with
    | nil => rfl
    | cons p t ih =>
        rcases p with ⟨a, c⟩
        have hc : List.map (fun p => if p.1 == k then (p.1, p.2 + 1) else p)
            ((a, c) :: t)
            = (if (a == k) = true then (a, c + 1) else (a, c))
              :: List.map (fun p => if p.1 == k then (p.1, p.2 + 1) else p) t := rfl
        rw [hc]
        by_cases hak : (a == k) = true
        case pos =>
            rw [if_pos hak]
            have hka : (key == a) = false := by
              rw [beq_eq_false_iff_ne]
              intro he
              exact h (he.trans (beq_iff_eq.mp hak))
            rw [List.lookup_cons, List.lookup_cons, hka]
            exact ih
        case neg =>
            rw [if_neg hak]
            rw [List.lookup_cons, List.lookup_cons]
            cases key == a with
            | true => rfl
            | false => exact ih
  · rw [if_neg hs]
    rw [lookup_append]
    cases hu : u.lookup key with
    | some v => rfl
    | none =>
        rw [List.lookup_cons]
        have hka : (key == k) = false := beq_eq_false_iff_ne.mpr h
        rw [hka]
        rfl

theorem usageOf_bump_self (u : Ledger) (k : Str) :
    usageOf (bumpUsage u k) k = usageOf u k + 1 := by
  rw [usageOf, usageOf, lookup_bump_self]
  rfl

theorem usageOf_bump_ne (u : Ledger) (k key : Str) (h : key ≠ k) :
    usageOf (bumpUsage u k) key = usageOf u key := by
  rw [usageOf, usageOf, lookup_bump_ne u k key h]

theorem countSel_append_one (sel : List WordMatch) (m : WordMatch) (key : Str) :
    countSel (sel ++ [m]) key
      = countSel sel key + (if sourceKey m = key then 1 else 0) := by
  rw [countSel, countSel, List.filter_append, List.length_append]
  congr 1
  by_cases h : sourceKey m = key
  · simp [h]
  · simp [h]

theorem sum_map_bump (S : List Str) (hnd : S.Nodup) (u : Ledger) (k : Str)
    (hk : k ∈ S) :
    (S.map (fun s => usageOf (bumpUsage u k) s)).sum
      = (S.map (fun s => usageOf u s)).sum + 1 := by
  induction S with
  | nil => cases hk
  | cons s t ih =>
      rw [List.map_cons, List.map_cons, List.sum_cons, List.sum_cons]
      rcases List.mem_cons.mp hk with hks | hkt
      · have hnot : ∀ x ∈ t, x ≠ k := by
          intro x hx he
          rw [he, hks] at hx
          exact (List.nodup_cons.mp hnd).1 hx
        have ht : t.map (fun x => usageOf (bumpUsage u k) x)
            = t.map (fun x => usageOf u x) :=
          List.map_congr_left (fun x hx => usageOf_bump_ne u k x (hnot x hx))
        rw [← hks, usageOf_bump_self, ht]
        omega
      · have hsk : s ≠ k := by
          intro he
          subst he
          exact (List.nodup_cons.mp hnd).1 hkt
        rw [usageOf_bump_ne u k s hsk, ih (List.nodup_cons.mp hnd).2 hkt]
        omega

theorem length_mul_le_sum (S : List Str) (f : Str → ℕ) (b : ℕ)
    (h : ∀ s ∈ S, b ≤ f s) : S.length * b ≤ (S.map f).sum := by
  induction S with
  | nil => simp
  | cons s t ih =>
      rw [List.length_cons, List.map_cons, List.sum_cons]
      have h1 : b ≤ f s := h s (List.mem_cons_self _ _)
      have h2 : t.length * b ≤ (t.map f).sum :=
        ih (fun x hx => h x (List.mem_cons_of_mem _ hx))
      calc (t.length + 1) * b = t.length * b + b := by ring
        _ ≤ (t.map f).sum + f s := Nat.add_le_add h2 h1
        _ = f s + (t.map f).sum := by ring

theorem ceilDiv_succ (t K : ℕ) (hK : 0 < K) :
    ceilDiv (t + 1) K = t / K + 1 := by
  rw [ceilDiv]
  have h : t + 1 + K - 1 = t + K := by omega
  rw [h, Nat.add_div_right t hK]

theorem ceilDiv_mono (t K : ℕ) : ceilDiv t K ≤ ceilDiv (t + 1) K := by
  rw [ceilDiv, ceilDiv]
  exact Nat.div_le_div_right (by omega)

theorem ceilDiv_lt_self (N K : ℕ) (hN : 2 ≤ N) (hK : 2 ≤ K) :
    ceilDiv N K < N := by
  rw [ceilDiv]
  rw [Nat.div_lt_iff_lt_mul (by omega : 0 < K)]
  obtain ⟨a, ha⟩ := Nat.exists_eq_add_of_le hN
  obtain ⟨b, hb⟩ := Nat.exists_eq_add_of_le hK
  subst ha
  subst hb
  have hexp : (2 + a) * (2 + b) = a * b + 2 * a + 2 * b + 4 := by ring
  omega

/-! ## Selection lemmas for the equal-confidence scenario (claim C1) -/

theorem sortByConfDesc_of_const (l : List WordMatch) (c : ℚ)
    (h : ∀ m ∈ l, m.confidence = c) : sortByConfDesc l = l := by
  have hs : List.Sorted confGe l := by
    induction l with
    | nil => exact List.sorted_nil
    | cons m t ih =>
        rw [List.sorted_cons]
        refine ⟨fun b hb => ?_, ih (fun x hx => h x (List.mem_cons_of_mem _ hx))⟩
        rw [confGe, h b (List.mem_cons_of_mem _ hb), h m (List.mem_cons_self _ _)]
  exact hs.insertionSort_eq

theorem indexSet_not_mem (idx : Index) (k : Str) (b : List WordMatch)
    (h : k ∉ idx.map Prod.fst) : indexSet idx k b = idx := by
  induction idx with
  | nil => rfl
  | cons p t ih =>
      have hc : indexSet (p :: t) k b
          = (if (p.1 == k) = true then (p.1, b) else p) :: indexSet t k b := rfl
      rw [hc]
      have hp1 : p.1 ≠ k := by
        intro he
        exact h (by rw [← he]; exact List.mem_map_of_mem Prod.fst (List.mem_cons_self _ _))
      rw [if_neg (by simp [hp1]), ih (fun hm => h (List.mem_cons_of_mem _ hm))]

theorem indexSet_get_self (idx : Index) (k : Str)
    (hnd : (idx.map Prod.fst).Nodup) : indexSet idx k (indexGet idx k) = idx := by
  induction idx with
  | nil => rfl
  | cons p t ih =>
      rcases p with ⟨a, c⟩
      have hc : indexSet ((a, c) :: t) k (indexGet ((a, c) :: t) k)
          = (if (a == k) = true then (a, indexGet ((a, c) :: t) k) else (a, c))
            :: indexSet t k (indexGet ((a, c) :: t) k) := rfl
      rw [hc]
      rw [List.map_cons, List.nodup_cons] at hnd
      by_cases hak : (a == k) = true
      case pos =>
          have ha : a = k := beq_iff_eq.mp hak
          have hget : indexGet ((a, c) :: t) k = c := by
            rw [indexGet, List.lookup_cons]
            have : (k == a) = true := by rw [beq_iff_eq]; exact ha.symm
            rw [this]
            rfl
          rw [if_pos hak, hget]
          have htail : indexSet t k c = t :=
            indexSet_not_mem t k c (by rw [← ha]; exact hnd.1)
          rw [htail]
      case neg =>
          rw [if_neg hak]
          have hget : indexGet ((a, c) :: t) k = indexGet t k := by
            rw [indexGet, indexGet, List.lookup_cons]
            have hka : (k == a) = false := by
              rw [beq_eq_false_iff_ne]
              intro he
              rw [he, beq_self_eq_true] at hak
              exact hak rfl
            rw [hka]
          rw [hget, ih hnd.2]

theorem searchWord_const_conf (D : Difflib) (idx : Index) (term : Str) (c : ℚ)
    (hnd : (idx.map Prod.fst).Nodup)
    (hne : indexGet idx (cleanWord term) ≠ [])
    (hconf : ∀ m ∈ indexGet idx (cleanWord term), m.confidence = c) :
    searchWord D idx term 50 = ((indexGet idx (cleanWord term)).take 50, idx) := by
  rw [searchWord]
  simp only
  rw [if_pos hne, sortByConfDesc_of_const _ c hconf, indexSet_get_self idx _ hnd]

theorem head_getD_mem {α : Type} (l : List α) (d : α) (h : l ≠ []) :
    l.head?.getD d ∈ l := by
  cases l with
  | nil => exact absurd rfl h
  | cons a t => exact List.mem_cons_self _ _

theorem div_score_antitone (c : ℚ) (hc : 0 < c) (a b : ℕ)
    (h : c * (1 / (1 + (a : ℚ) * (3/10))) ≤ c * (1 / (1 + (b : ℚ) * (3/10)))) :
    b ≤ a := by
  have ha : (0:ℚ) < 1 + (a:ℚ) * (3/10) := by positivity
  have h1 : 1 / (1 + (a : ℚ) * (3/10)) ≤ 1 / (1 + (b : ℚ) * (3/10)) :=
    (mul_le_mul_left hc).mp h
  have h2 : 1 + (b:ℚ) * (3/10) ≤ 1 + (a:ℚ) * (3/10) :=
    le_of_one_div_le_one_div ha h1
  have h3 : (b:ℚ) * (3/10) ≤ (a:ℚ) * (3/10) := by linarith
  have h4 : (b:ℚ) ≤ (a:ℚ) := le_of_mul_le_mul_right h3 (by norm_num)
  exact_mod_cast h4

theorem findBest_const_conf (D : Difflib) (idx : Index) (term : Str)
    (c minConf : ℚ) (used : Ledger)
    (hnd : (idx.map Prod.fst).Nodup)
    (hne : indexGet idx (cleanWord term) ≠ [])
    (hconf : ∀ m ∈ indexGet idx (cleanWord term), m.confidence = c)
    (hcpos : 0 < c) (hminc : minConf ≤ c) :
    ∃ m, findBestWordMatch D idx term none minConf used true = (some m, idx) ∧
      m ∈ (indexGet idx (cleanWord term)).take 50 ∧
      ∀ m' ∈ (indexGet idx (cleanWord term)).take 50,
        usageOf used (sourceKey m) ≤ usageOf used (sourceKey m') := by
  have hsw := searchWord_const_conf D idx term c hnd hne hconf
  have hml_conf : ∀ m ∈ (indexGet idx (cleanWord term)).take 50, m.confidence = c :=
    fun m hm => hconf m (List.mem_of_mem_take hm)
  have hml_ne : (indexGet idx (cleanWord term)).take 50 ≠ [] := by
    intro h0
    rcases List.take_eq_nil_iff.mp h0 with h | h
    · exact absurd h (by norm_num)
    · exact hne h
  rw [findBestWordMatch.eq_def, hsw]
  simp only
  have hfilter : List.filter (fun m => decide (minConf ≤ m.confidence))
      ((indexGet idx (cleanWord term)).take 50)
      = (indexGet idx (cleanWord term)).take 50 := by
    apply List.filter_eq_self.mpr
    intro m hm
    rw [decide_eq_true_eq, hml_conf m hm]
    exact hminc
  rw [hfilter, if_neg hml_ne]
  by_cases hu : used = []
  · have hcond : (true && decide (used ≠ [])) = false := by
      rw [hu]
      decide
    rw [hcond]
    rw [if_neg (by simp)]
    refine ⟨((indexGet idx (cleanWord term)).take 50).head?.getD default,
      rfl, head_getD_mem _ _ hml_ne, ?_⟩
    intro m' _
    rw [hu]
    exact le_refl _
  · have hcond : (true && decide (used ≠ [])) = true := by
      simp [hu]
    rw [hcond, if_pos rfl]
    set ml := (indexGet idx (cleanWord term)).take 50 with hml
    set scored := ml.map (fun m => (diversityScore used m, m)) with hscored
    have hscored_ne : scored ≠ [] := by
      rw [hscored]
      intro h0
      exact hml_ne (List.map_eq_nil_iff.mp h0)
    have hsort_ne : scored.insertionSort scoreGe ≠ [] := by
      intro h0
      have := (List.perm_insertionSort scoreGe scored).length_eq
      rw [h0] at this
      exact hscored_ne (List.length_eq_zero.mp this.symm)
    cases hsort : scored.insertionSort scoreGe with
    | nil => exact absurd hsort hsort_ne
    | cons hd tl =>
        have hd_mem : hd ∈ scored := by
          have : hd ∈ scored.insertionSort scoreGe := by
            rw [hsort]
            exact List.mem_cons_self _ _
          exact (List.perm_insertionSort scoreGe scored).mem_iff.mp this
        obtain ⟨m0, hm0_mem, hm0_eq⟩ := List.mem_map.mp (by rw [hscored] at hd_mem; exact hd_mem)
        have hmax : ∀ x ∈ scored, x.1 ≤ hd.1 := by
          intro x hx
          have hx2 : x ∈ scored.insertionSort scoreGe :=
            (List.perm_insertionSort scoreGe scored).symm.mem_iff.mp hx
          rw [hsort] at hx2
          rcases List.mem_cons.mp hx2 with he | ht
          · rw [he]
          · have hsorted := List.sorted_insertionSort scoreGe scored
            rw [hsort, List.sorted_cons] at hsorted
            exact hsorted.1 x ht
        refine ⟨hd.2, ?_, ?_, ?_⟩
        · rfl
        · rw [← hm0_eq]
          exact hm0_mem
        · intro m' hm'
          have hsc' : (diversityScore used m', m') ∈ scored := by
            rw [hscored]
            exact List.mem_map_of_mem _ hm'
          have hle : diversityScore used m' ≤ hd.1 := hmax _ hsc'
          have hd1 : hd.1 = diversityScore used hd.2 := by
            rw [← hm0_eq]
          rw [hd1] at hle
          rw [diversityScore, diversityScore] at hle
          rw [hml_conf _ hm', hml_conf hd.2 (by rw [← hm0_eq]; exact hm0_mem)] at hle
          exact div_score_antitone c hcpos _ _ hle

theorem composeLoop_diversity_bound (D : Difflib) (idx : Index) (term : Str)
    (c minConf : ℚ) (S : List Str) (K : ℕ)
    (hnd : (idx.map Prod.fst).Nodup)
    (hne : indexGet idx (cleanWord term) ≠ [])
    (hconf : ∀ m ∈ indexGet idx (cleanWord term), m.confidence = c)
    (hcpos : 0 < c) (hminc : minConf ≤ c)
    (hS : S = (((indexGet idx (cleanWord term)).take 50).map sourceKey).dedup)
    (hK : K = S.length) (hKpos : 0 < K) :
    ∀ (n t : ℕ) (sel : List WordMatch) (miss : List Str) (used : Ledger),
      (∀ key, usageOf used key = countSel sel key) →
      (∀ key, key ∉ S → usageOf used key = 0) →
      (S.map (fun s => usageOf used s)).sum = t →
      (∀ key, usageOf used key ≤ ceilDiv t K) →
      ∀ key, countSel (composeLoop D none minConf true (List.replicate n term)
          ⟨sel, miss, used, idx⟩).selected key ≤ ceilDiv (t + n) K := by
  intro n
  induction n with
  | zero =>
      intro t sel miss used hmirror hzero hsum hbound key
      simp only [List.replicate, composeLoop]
      rw [← hmirror key]
      exact hbound key
  | succ n ih =>
      intro t sel miss used hmirror hzero hsum hbound key
      rw [show List.replicate (n + 1) term = term :: List.replicate n term from rfl]
      simp only [composeLoop]
      obtain ⟨m, hfb, hm_mem, hm_min⟩ :=
        findBest_const_conf D idx term c minConf used hnd hne hconf hcpos hminc
      rw [hfb]
      simp only
      have hskS : sourceKey m ∈ S := by
        rw [hS, List.mem_dedup]
        exact List.mem_map_of_mem sourceKey hm_mem
      have hm_min' : ∀ s ∈ S, usageOf used (sourceKey m) ≤ usageOf used s := by
        intro s hs
        rw [hS, List.mem_dedup] at hs
        obtain ⟨m', hm', hm'eq⟩ := List.mem_map.mp hs
        rw [← hm'eq]
        exact hm_min m' hm'
      have hKle : K * usageOf used (sourceKey m) ≤ t := by
        rw [← hsum, hK, Nat.mul_comm]
        exact Nat.mul_comm _ _ ▸
          length_mul_le_sum S (fun s => usageOf used s) (usageOf used (sourceKey m)) hm_min'
      have hu_le : usageOf used (sourceKey m) ≤ t / K :=
        (Nat.le_div_iff_mul_le hKpos).mpr (by rwa [Nat.mul_comm] at hKle)
      have hmirror' : ∀ key', usageOf (bumpUsage used (sourceKey m)) key'
          = countSel (sel ++ [m]) key' := by
        intro key'
        rw [countSel_append_one]
        by_cases hkey : key' = sourceKey m
        · subst hkey
          rw [usageOf_bump_self, hmirror, if_pos rfl]
        · rw [usageOf_bump_ne used _ key' hkey, hmirror key',
            if_neg (fun he => hkey he.symm)]
          omega
      have hzero' : ∀ key', key' ∉ S → usageOf (bumpUsage used (sourceKey m)) key' = 0 := by
        intro key' hk'
        have hne' : key' ≠ sourceKey m := fun he => hk' (he ▸ hskS)
        rw [usageOf_bump_ne used _ key' hne']
        exact hzero key' hk'
      have hsum' : (S.map (fun s => usageOf (bumpUsage used (sourceKey m)) s)).sum
          = t + 1 := by
        rw [sum_map_bump S (by rw [hS]; exact List.nodup_dedup _) used _ hskS, hsum]
      have hbound' : ∀ key', usageOf (bumpUsage used (sourceKey m)) key'
          ≤ ceilDiv (t + 1) K := by
        intro key'
        by_cases hkey : key' = sourceKey m
        · subst hkey
          rw [usageOf_bump_self, ceilDiv_succ t K hKpos]
          omega
        · rw [usageOf_bump_ne used _ key' hkey]
          exact (hbound key').trans (ceilDiv_mono t K)
      have hstep := ih (t + 1) (sel ++ [m]) miss (bumpUsage used (sourceKey m))
        hmirror' hzero' hsum' hbound' key
      rw [show t + (n + 1) = t + 1 + n from by omega]
      exact hstep

theorem findBest_const_conf_disabled (D : Difflib) (idx : Index) (term : Str)
    (c minConf : ℚ) (used : Ledger)
    (hnd : (idx.map Prod.fst).Nodup)
    (hne : indexGet idx (cleanWord term) ≠ [])
    (hconf : ∀ m ∈ indexGet idx (cleanWord term), m.confidence = c)
    (hminc : minConf ≤ c) :
    findBestWordMatch D idx term none minConf used false
      = (some (((indexGet idx (cleanWord term)).take 50).head?.getD default), idx) := by
  have hsw := searchWord_const_conf D idx term c hnd hne hconf
  have hml_conf : ∀ m ∈ (indexGet idx (cleanWord term)).take 50, m.confidence = c :=
    fun m hm => hconf m (List.mem_of_mem_take hm)
  have hml_ne : (indexGet idx (cleanWord term)).take 50 ≠ [] := by
    intro h0
    rcases List.take_eq_nil_iff.mp h0 with h | h
    · exact absurd h (by norm_num)
    · exact hne h
  rw [findBestWordMatch.eq_def, hsw]
  simp only
  have hfilter : List.filter (fun m => decide (minConf ≤ m.confidence))
      ((indexGet idx (cleanWord term)).take 50)
      = (indexGet idx (cleanWord term)).take 50 := by
    apply List.filter_eq_self.mpr
    intro m hm
    rw [decide_eq_true_eq, hml_conf m hm]
    exact hminc
  rw [hfilter, if_neg hml_ne, Bool.false_and, if_neg (by simp)]

theorem composeLoop_disabled (D : Difflib) (idx : Index) (term : Str)
    (c minConf : ℚ)
    (hnd : (idx.map Prod.fst).Nodup)
    (hne : indexGet idx (cleanWord term) ≠ [])
    (hconf : ∀ m ∈ indexGet idx (cleanWord term), m.confidence = c)
    (hminc : minConf ≤ c) :
    ∀ (n : ℕ) (sel : List WordMatch) (miss : List Str) (used : Ledger),
      (composeLoop D none minConf false (List.replicate n term)
          ⟨sel, miss, used, idx⟩).selected
        = sel ++ List.replicate n
            (((indexGet idx (cleanWord term)).take 50).head?.getD default) := by
  intro n
  induction n with
  | zero =>
      intro sel miss used
      simp [List.replicate, composeLoop]
  | succ n ih =>
      intro sel miss used
      rw [show List.replicate (n + 1) term = term :: List.replicate n term from rfl]
      simp only [composeLoop]
      rw [findBest_const_conf_disabled D idx term c minConf used hnd hne hconf hminc]
      simp only
      rw [ih, List.append_assoc]
      congr 1

/-- **C1, amended** (corrected).  With all candidate occurrences of the word
at *equal* (positive, admitted) confidence, at least two distinct
`(source, speaker)` keys among the (at most 50) candidates, distinct index
keys, and `N ≥ 2` repetitions: diversity-enabled composition selects no
source key more than `⌈N / K⌉` times (`K` = number of distinct keys), which
is strictly fewer than the `N` selections the top candidate's key receives
with diversity disabled.  With unequal confidences the bound fails — see the
counterexample. -/
theorem C1_amended (D : Difflib) (idx : Index) (term : Str)
    (minConf maxGap c : ℚ) (N : ℕ)
    (hnd : (idx.map Prod.fst).Nodup)
    (hne : indexGet idx (cleanWord term) ≠ [])
    (hconf : ∀ m ∈ indexGet idx (cleanWord term), m.confidence = c)
    (hcpos : 0 < c) (hminc : minConf ≤ c) (hN : 2 ≤ N)
    (hK : 2 ≤ ((((indexGet idx (cleanWord term)).take 50).map sourceKey).dedup).length) :
    (∀ key, countSel (composeSentence D idx (List.replicate N term) none minConf
          maxGap true).1.words key
        ≤ ceilDiv N
            ((((indexGet idx (cleanWord term)).take 50).map sourceKey).dedup).length) ∧
    ceilDiv N ((((indexGet idx (cleanWord term)).take 50).map sourceKey).dedup).length
        < N ∧
    countSel (composeSentence D idx (List.replicate N term) none minConf
        maxGap false).1.words
      (sourceKey (((indexGet idx (cleanWord term)).take 50).head?.getD default)) = N := by
  refine ⟨?_, ceilDiv_lt_self N _ hN hK, ?_⟩
  · intro key
    rw [composeSentence]
    simp only
    have hmain := composeLoop_diversity_bound D idx term c minConf _ _
      hnd hne hconf hcpos hminc rfl rfl (by omega)
      N 0 [] [] []
      (fun key' => rfl)
      (fun key' _ => rfl)
      (by simp [usageOf])
      (fun key' => Nat.zero_le _)
      key
    rwa [Nat.zero_add] at hmain
  · rw [composeSentence]
    simp only
    rw [composeLoop_disabled D idx term c minConf hnd hne hconf hminc N [] [] [],
      List.nil_append, countSel]
    rw [List.filter_eq_self.mpr (by intro x hx; rw [List.eq_of_mem_replicate hx]; simp)]
    exact List.length_replicate _ _

/-- **C1, counterexample**.  With two distinct sources of *unequal*
confidence (1 vs 0), the diversity bonus `1/(1+0.3·u)` cannot overcome the
confidence gap: requesting the word twice selects the `f_x` source twice —
more than `⌈2/2⌉ = 1` — and exactly as often as with diversity disabled, so
neither part of the claim holds. -/
theorem C1_counterexample :
    2 ≤ ((((indexGet cexIndex (cleanWord ['a'])).take 50).map sourceKey).dedup).length ∧
    ceilDiv 2
      ((((indexGet cexIndex (cleanWord ['a'])).take 50).map sourceKey).dedup).length
      = 1 ∧
    countSel (composeSentence trivialDifflib cexIndex (List.replicate 2 ['a'])
        none 0 0 true).1.words (sourceKey occHigh) = 2 ∧
    countSel (composeSentence trivialDifflib cexIndex (List.replicate 2 ['a'])
        none 0 0 false).1.words (sourceKey occHigh) = 2 := by
  refine ⟨by decide, by decide, ?_, by decide⟩
  have h1 : findBestWordMatch trivialDifflib cexIndex ['a'] none 0 [] true
      = (some occHigh, cexIndex) := by decide
  have h2 : findBestWordMatch trivialDifflib cexIndex ['a'] none 0
      [(['f', '_', 'x'], 1)] true = (some occHigh, cexIndex) := by
    have hsw : searchWord trivialDifflib cexIndex ['a'] 50
        = ([occHigh, occLow], cexIndex) := by decide
    rw [findBestWordMatch.eq_def, hsw]
    simp only
    have hfil : List.filter (fun m => decide ((0:ℚ) ≤ m.confidence))
        [occHigh, occLow] = [occHigh, occLow] := by decide
    rw [hfil, if_neg (by decide : ¬([occHigh, occLow] : List WordMatch) = [])]
    rw [if_pos (by decide :
      (true && decide (([((['f', '_', 'x'] : Str), 1)] : Ledger) ≠ [])) = true)]
    have hd1 : diversityScore [(['f', '_', 'x'], 1)] occHigh = 10/13 := by
      rw [diversityScore]
      have hs : sourceKey occHigh = ['f', '_', 'x'] := by decide
      rw [hs]
      have hu : usageOf [(['f', '_', 'x'], 1)] ['f', '_', 'x'] = 1 := by decide
      rw [hu]
      norm_num [occHigh]
    have hd2 : diversityScore [(['f', '_', 'x'], 1)] occLow = 0 := by
      rw [diversityScore]
      norm_num [occLow]
    rw [List.map_cons, List.map_cons, List.map_nil, hd1, hd2]
    have hsort : List.insertionSort scoreGe [((10:ℚ)/13, occHigh), (0, occLow)]
        = [((10:ℚ)/13, occHigh), (0, occLow)] := by
      apply List.Sorted.insertionSort_eq
      rw [List.sorted_cons]
      refine ⟨?_, List.sorted_singleton _⟩
      intro b hb
      simp only [List.mem_singleton] at hb
      rw [hb, scoreGe]
      norm_num
    rw [hsort]
    rfl
  have hloop : (composeSentence trivialDifflib cexIndex (List.replicate 2 ['a'])
      none 0 0 true).1.words = [occHigh, occHigh] := by
    rw [composeSentence]
    simp only
    rw [show List.replicate 2 (['a'] : Str) = [['a'], ['a']] from rfl]
    simp only [composeLoop]
    rw [h1]
    simp only
    have hb : bumpUsage [] (sourceKey occHigh) = [(['f', '_', 'x'], 1)] := by decide
    rw [hb, h2]
    rfl
  rw [hloop]
  decide

/-- **C1, amended, witness**: two equal-confidence sources (`f_x` and `g_y`,
confidence 1) and `N = 2`: diversity selects each key at most once while the
disabled run selects `f_x` twice. -/
theorem C1_amended_witness :
    (eqIndex.map Prod.fst).Nodup ∧
    indexGet eqIndex (cleanWord ['a']) ≠ [] ∧
    (∀ m ∈ indexGet eqIndex (cleanWord ['a']), m.confidence = 1) ∧
    ((0:ℚ) < 1) ∧ ((0:ℚ) ≤ 1) ∧ 2 ≤ 2 ∧
    2 ≤ ((((indexGet eqIndex (cleanWord ['a'])).take 50).map sourceKey).dedup).length ∧
    ((∀ key, countSel (composeSentence trivialDifflib eqIndex
          (List.replicate 2 ['a']) none 0 0 true).1.words key
        ≤ ceilDiv 2
            ((((indexGet eqIndex (cleanWord ['a'])).take 50).map
              sourceKey).dedup).length) ∧
      ceilDiv 2
          ((((indexGet eqIndex (cleanWord ['a'])).take 50).map sourceKey).dedup).length
        < 2 ∧
      countSel (composeSentence trivialDifflib eqIndex (List.replicate 2 ['a'])
          none 0 0 false).1.words
        (sourceKey (((indexGet eqIndex (cleanWord ['a'])).take 50).head?.getD
          default)) = 2) :=
  ⟨by decide, by decide, by decide, by norm_num, by norm_num, by decide, by decide,
   C1_amended trivialDifflib eqIndex ['a'] 0 0 1 2 (by decide) (by decide)
     (by decide) (by norm_num) (by norm_num) (by decide) (by decide)⟩

end Amours
